import Mathlib

/-!
Formal model of a Monte-Carlo game player for a 10x10 tile-sliding puzzle
(Rust sources: src/main.rs and src/time_keeper.rs).

The board is a 10x10 grid of small naturals (0 = empty).  `State.advance`
compacts every column (Forward/Back) or row (Left/Right) by the in-place
swap loop of the source; `State.update` inserts the scheduled tile value at
the pt-th empty cell in row-major order; `get_score` sums the squared sizes
of 4-neighbour same-value groups found by the source's breadth-first search;
`rulebase_action` is the 3x3 rollout lookup table; the selection loop of
`primitive_monteralro` and the `TimeKeeper` arithmetic are modelled exactly.

Modelling conventions:
* the Rust array `[[u8; W]; H]` is modelled by `List (List Nat)`; the shape
  guaranteed by the Rust array type (10 rows of length 10) becomes the
  explicit predicate `IsBoard`, assumed where a theorem needs it;
* machine integers are Nat/Int; where Rust release-mode wrapping matters the
  wrap is written out explicitly (`usizeSub1`, `i64AsU32`);
* out-of-bounds indexing, `Duration` subtraction underflow and division by
  zero - which panic in Rust - are modelled by `Option` (`none` = panic) in
  `rulebase_action` and `TimeKeeper.is_time_over`; board accesses in the
  loops below are all in range for well-shaped boards, so total
  `bget`/`bset` with a junk default are exact there;
* `f64` scores are exact: every accumulated value is an integer sum of
  squares bounded by 100^2 per rollout and 14000 rollouts, far below 2^53,
  so Nat models the arithmetic and the comparisons exactly.
-/

set_option maxHeartbeats 1000000
set_option maxRecDepth 100000

namespace AHC

abbrev H : Nat := 10
abbrev W : Nat := 10
abbrev END_TURN : Nat := 100

/-- The four gravity actions (src/main.rs lines 73-79). -/
inductive Action where
  | Forward
  | Back
  | Left
  | Right
deriving DecidableEq

/-- LEGAL_ACTIONS (src/main.rs line 230). -/
def LEGAL_ACTIONS : List Action := [.Forward, .Back, .Left, .Right]

abbrev Cell : Type := Fin H × Fin W

/-- The board `[[u8; W]; H]`: a list of H rows of W small naturals. -/
abbrev Board : Type := List (List Nat)

/-- The shape invariant carried by the Rust array type. -/
def IsBoard (b : Board) : Prop := b.length = H ∧ ∀ r ∈ b, r.length = W

instance (b : Board) : Decidable (IsBoard b) := by
  unfold IsBoard
  infer_instance

/-- Board access by Nat indices (in range for well-shaped boards; the junk
default 0 is never reached there). -/
def bget (b : Board) (y x : Nat) : Nat := (b.getD y []).getD x 0

/-- Board update by Nat indices (no-op out of range, which never happens in
the loops below on well-shaped boards). -/
def bset (b : Board) (y x v : Nat) : Board := b.set y ((b.getD y []).set x v)

/-- Board access at a cell. -/
def bAt (b : Board) (p : Cell) : Nat := bget b p.1.val p.2.val

/-- The source's simultaneous tuple swap
`(board[y][x], board[y2][x2]) = (board[y2][x2], board[y][x])`:
both right-hand sides read the pre-swap board. -/
def swapV (b : Board) (y x y2 x2 : Nat) : Board :=
  bset (bset b y x (bget b y2 x2)) y2 x2 (bget b y x)

/-- Game state: board plus turn counter (src/main.rs lines 90-94).
The Rust turn counter is an i64 that starts at 0 and is only ever
incremented, so Nat models it exactly. -/
structure State where
  board : Board
  turn : Nat
deriving DecidableEq

/-- State::new (src/main.rs line 97). -/
def State.new : State := ⟨List.replicate H (List.replicate W 0), 0⟩

/-- State::is_done (src/main.rs line 101). -/
def State.is_done (s : State) : Bool := decide (s.turn ≥ END_TURN)

/-- One iteration of the Forward column loop (src/main.rs lines 108-116):
skip empty cells, otherwise swap the cell at scan index y with the cell at
the write index dest and increment dest. -/
def fwdStep (x : Nat) (st : Board × Nat) (y : Nat) : Board × Nat :=
  if bget st.1 y x = 0 then st else (swapV st.1 y x st.2 x, st.2 + 1)

/-- One iteration of the Back column loop (src/main.rs lines 120-128).
`dest - 1` is wrapping u64 subtraction in release Rust; it can underflow
only on the last iteration of a fully occupied column, after which dest is
never read, so truncated Nat subtraction produces the same board. -/
def backStep (x : Nat) (st : Board × Nat) (y : Nat) : Board × Nat :=
  if bget st.1 y x = 0 then st else (swapV st.1 y x st.2 x, st.2 - 1)

/-- One iteration of the Left row loop (src/main.rs lines 132-140). -/
def leftStep (y : Nat) (st : Board × Nat) (x : Nat) : Board × Nat :=
  if bget st.1 y x = 0 then st else (swapV st.1 y x y st.2, st.2 + 1)

/-- One iteration of the Right row loop (src/main.rs lines 144-152);
see `backStep` for the `dest - 1` convention. -/
def rightStep (y : Nat) (st : Board × Nat) (x : Nat) : Board × Nat :=
  if bget st.1 y x = 0 then st else (swapV st.1 y x y st.2, st.2 - 1)

/-- The Forward arm of State::advance (src/main.rs lines 107-118): for x in
0..W, for y in 0..H, compact column x upward with dest starting at 0. -/
def fwdBoard (b : Board) : Board :=
  (List.range W).foldl (fun bd x => ((List.range H).foldl (fwdStep x) (bd, 0)).1) b

/-- The Back arm of State::advance (src/main.rs lines 119-130): for x in
0..W, for y in (0..H).rev(), compact column x downward with dest starting
at H-1. -/
def backBoard (b : Board) : Board :=
  (List.range W).foldl
    (fun bd x => (((List.range H).reverse).foldl (backStep x) (bd, H - 1)).1) b

/-- The Left arm of State::advance (src/main.rs lines 131-142). -/
def leftBoard (b : Board) : Board :=
  (List.range H).foldl (fun bd y => ((List.range W).foldl (leftStep y) (bd, 0)).1) b

/-- The Right arm of State::advance (src/main.rs lines 143-154). -/
def rightBoard (b : Board) : Board :=
  (List.range H).foldl
    (fun bd y => (((List.range W).reverse).foldl (rightStep y) (bd, W - 1)).1) b

/-- State::advance (src/main.rs lines 105-157): for every column (Forward:
scan y upward with dest starting at 0; Back: scan y downward with dest
starting at H-1) or row (Left/Right likewise on x), stably compact the
non-empty cells, then increment the turn counter. -/
def State.advance (s : State) (a : Action) : State :=
  match a with
  | .Forward => ⟨fwdBoard s.board, s.turn + 1⟩
  | .Back => ⟨backBoard s.board, s.turn + 1⟩
  | .Left => ⟨leftBoard s.board, s.turn + 1⟩
  | .Right => ⟨rightBoard s.board, s.turn + 1⟩

/-- The cells in row-major scan order, as iterated by the nested
`for y in 0..H { for x in 0..W { .. } }` loops of the source. -/
def cellsRM : List Cell :=
  (List.finRange H).flatMap fun y => (List.finRange W).map fun x => (y, x)

/-- One iteration of the State::update scan (src/main.rs lines 173-183):
non-empty cells are skipped; for an empty cell the counter is incremented
and, when it reaches pt, the cell receives the scheduled value v. -/
def updStep (v : Nat) (pt : Int) (st : Int × Board) (p : Cell) : Int × Board :=
  if bAt st.2 p ≠ 0 then st
  else (st.1 + 1, if st.1 + 1 = pt then bset st.2 p.1.val p.2.val v else st.2)

/-- State::update (src/main.rs lines 170-184): scan all cells in row-major
order counting empty ones; the pt-th empty cell is set to the value
scheduled for the current turn (`FUTURE_CANDIES`, passed here as the
function `candies`).  The turn counter is not touched.  `pt` is an i64 in
the source, modelled as Int. -/
def State.update (s : State) (candies : Nat → Nat) (pt : Int) : State :=
  ⟨((List.finRange H).foldl
      (fun st y => (List.finRange W).foldl
        (fun st2 x => updStep (candies s.turn) pt st2 (y, x)) st)
      ((0 : Int), s.board)).2,
    s.turn⟩

/-- DX of get_group_size (src/main.rs line 187). -/
def DX : List Int := [1, -1, 0, 0]

/-- DY of get_group_size (src/main.rs line 188). -/
def DY : List Int := [0, 0, 1, -1]

/-- The in-bounds neighbours of a cell in the order scanned by
get_group_size (src/main.rs lines 198-209): for i in 0..4 the candidate is
(y + DY[i], x + DX[i]), kept when both coordinates lie in 0..10. -/
def nbrs (p : Cell) : List Cell :=
  (List.range 4).filterMap fun i =>
    let ty : Int := (p.1.val : Int) + DY.getD i 0
    let tx : Int := (p.2.val : Int) + DX.getD i 0
    if h : 0 ≤ ty ∧ ty < (H : Int) ∧ 0 ≤ tx ∧ tx < (W : Int) then
      some (⟨ty.toNat, by omega⟩, ⟨tx.toNat, by omega⟩)
    else none

/-- The `checked` grid `[[bool; W]; H]` of get_score. -/
abbrev CheckGrid : Type := List (List Bool)

/-- Read the `checked` grid at a cell. -/
def ckAt (ch : CheckGrid) (p : Cell) : Bool := (ch.getD p.1.val []).getD p.2.val false

/-- Mark a cell in the `checked` grid. -/
def ckSet (ch : CheckGrid) (p : Cell) : CheckGrid :=
  ch.set p.1.val ((ch.getD p.1.val []).set p.2.val true)

/-- Processing of one neighbour inside the BFS loop (src/main.rs lines
205-208): an unchecked cell holding the group's value is marked checked and
appended to the queue. -/
def visitStep (b : Board) (candy : Nat) (st : CheckGrid × List Cell) (c : Cell) :
    CheckGrid × List Cell :=
  if ckAt st.1 c = false ∧ bAt b c = candy then (ckSet st.1 c, st.2 ++ [c]) else st

/-- The BFS while-loop of get_group_size (src/main.rs lines 195-211):
pop the front of the queue, count it, and push its unchecked same-value
neighbours.  The source loops until the queue is empty; the fuel argument
only bounds the iteration count and is chosen large enough at the call site
(the BFS correctness lemma proves the fuel is never exhausted there), so
the fuelled recursion computes exactly the loop's result. -/
def bfsRun (b : Board) (candy : Nat) : Nat → List Cell → CheckGrid → Nat → Nat × CheckGrid
  | _, [], ch, cnt => (cnt, ch)
  | 0, _ :: _, ch, cnt => (cnt, ch)
  | fuel + 1, p :: q', ch, cnt =>
      let st := (nbrs p).foldl (visitStep b candy) (ch, [])
      bfsRun b candy fuel (q' ++ st.2) st.1 (cnt + 1)

/-- State::get_group_size (src/main.rs lines 186-213): mark the start cell,
then run the BFS with the start cell's value; returns the number of popped
cells together with the updated `checked` grid (which the source mutates in
place). -/
def get_group_size (b : Board) (p : Cell) (checked : CheckGrid) : Nat × CheckGrid :=
  bfsRun b (bAt b p) (2 * (H * W) + 1) [p] (ckSet checked p) 0

/-- One iteration of the get_score scan (src/main.rs lines 218-224): an
unvisited non-empty cell starts a group search and contributes the squared
group size. -/
def scoreStep (b : Board) (st : Nat × CheckGrid) (p : Cell) : Nat × CheckGrid :=
  if bAt b p ≠ 0 ∧ ckAt st.2 p = false then
    ((st.1 + (get_group_size b p st.2).1 * (get_group_size b p st.2).1),
      (get_group_size b p st.2).2)
  else st

/-- State::get_score (src/main.rs lines 215-227).  The source accumulates
`(group_size * group_size) as f64`; all values are integers bounded by
100 * 100^2, far below 2^53, so the f64 sum is exact and Nat models it. -/
def get_score (b : Board) : Nat :=
  ((List.finRange H).foldl
    (fun st y => (List.finRange W).foldl (fun st2 x => scoreStep b st2 (y, x)) st)
    (0, List.replicate H (List.replicate W false))).1

/-- Rust `as usize - 1` on a tile value: the u8 is zero-extended to u64 and
1 is subtracted with wrap-around (release mode), so value 0 becomes
2^64 - 1, an out-of-range index. -/
def usizeSub1 (n : Nat) : Nat := (n + (2 ^ 64 - 1)) % 2 ^ 64

/-- The fixed 3x3 rule table of rulebase_action (src/main.rs lines 238-242),
indexed by (current value - 1, next value - 1). -/
def ruleTable : List (List Action) :=
  [[.Forward, .Back, .Back], [.Forward, .Left, .Right], [.Forward, .Left, .Right]]

/-- rulebase_action (src/main.rs lines 237-251): Forward on the last turn,
otherwise the rule-table entry for the current and next scheduled values.
An out-of-range table index panics in Rust and is modelled by `none`. -/
def rulebase_action (candies : Nat → Nat) (s : State) : Option Action :=
  if s.turn ≥ END_TURN - 1 then some .Forward
  else
    match ruleTable.get? (usizeSub1 (candies s.turn)) with
    | none => none
    | some row => row.get? (usizeSub1 (candies (s.turn + 1)))

/-- The selection loop of primitive_monteralro (src/main.rs lines 280-288):
best_score starts at 0 and best_action_idx at 0; iterating over the
accumulator array `w` with its indices (`w.iter().enumerate()`), each
accumulator strictly greater than the running best replaces it.  The
accumulators are the per-action rollout-score totals at the moment the
time budget expired (integer-valued f64, modelled exactly by Nat; see the
header note). -/
def bestAccum (w : List Nat) : Nat × Nat :=
  (List.range w.length).foldl
    (fun st d => if w.getD d 0 > st.1 then (w.getD d 0, d) else st) (0, 0)

/-- The action returned by primitive_monteralro once the rollout loop has
stopped: `LEGAL_ACTIONS[best_action_idx]`. -/
def primitive_monteralro_select (w : List Nat) : Action :=
  LEGAL_ACTIONS.getD (bestAccum w).2 .Forward

/-- TimeKeeper (src/time_keeper.rs lines 4-10 and src/main.rs lines 6-12).
The two Instant fields are wall-clock values; the elapsed durations
`now - start_time` and `now - before_time` that is_time_over derives from
them are passed to the model as explicit nanosecond arguments. -/
structure TimeKeeper where
  time_threshold : Nat
  end_turn : Int
  turn : Int

/-- TimeKeeper::new (src/time_keeper.rs lines 16-24): threshold in
milliseconds, stored as a Duration (nanoseconds). -/
def TimeKeeper.new (time_threshold_ms : Nat) (end_turn : Int) : TimeKeeper :=
  ⟨time_threshold_ms * 1000000, end_turn, 0⟩

/-- TimeKeeper::set_turn (src/time_keeper.rs lines 26-29); the fresh
before_time timestamp is modelled by the lastDiff argument of
is_time_over. -/
def TimeKeeper.set_turn (tk : TimeKeeper) (t : Int) : TimeKeeper :=
  ⟨tk.time_threshold, tk.end_turn, t⟩

/-- Rust `as u32` on an i64: truncation to the low 32 bits. -/
def i64AsU32 (x : Int) : Nat := (x % 2 ^ 32).toNat

/-- The per-turn allowance `remaining_time / (end_turn - turn) as u32`
computed inside is_time_over (src/time_keeper.rs lines 35-36), given the
nanoseconds elapsed since construction.  Rust Duration division truncates
the total nanosecond count, i.e. is Nat division. -/
def TimeKeeper.now_threshold (tk : TimeKeeper) (wholeDiff : Nat) : Nat :=
  (tk.time_threshold - wholeDiff) / i64AsU32 (tk.end_turn - tk.turn)

/-- TimeKeeper::is_time_over (src/time_keeper.rs lines 31-38), with the two
elapsed durations in nanoseconds as arguments.  `Duration` subtraction
panics on underflow and `Duration` division panics on a zero divisor; both
panics are modelled by `none`. -/
def TimeKeeper.is_time_over (tk : TimeKeeper) (wholeDiff lastDiff : Nat) : Option Bool :=
  if tk.time_threshold < wholeDiff then none
  else if i64AsU32 (tk.end_turn - tk.turn) = 0 then none
  else some (decide (tk.now_threshold wholeDiff ≤ lastDiff))

/-! ## Specification-side definitions

These follow the spec's words and are compared with the code-level
definitions above by the theorems below. -/

/-- Keep the non-empty values of a line. -/
def nonZero (v : Nat) : Bool := decide (v ≠ 0)

/-- A line compacted against its low-index edge, as the spec describes it:
the non-empty values in scan order, followed by the zeros. -/
def compactedLow (l : List Nat) : List Nat :=
  l.filter nonZero ++ List.replicate (l.length - (l.filter nonZero).length) 0

/-- A line compacted against its high-index edge: the zeros, followed by
the non-empty values in scan order (scanning the result from the high edge
downward therefore meets the non-empty values in the order in which a scan
of the original line from the high edge downward met them). -/
def compactedHigh (l : List Nat) : List Nat :=
  List.replicate (l.length - (l.filter nonZero).length) 0 ++ l.filter nonZero

/-- The list of values along a column, from y = 0 to y = 9. -/
def colList (b : Board) (x : Nat) : List Nat := (List.range H).map fun y => bget b y x

/-- The list of values along a row, from x = 0 to x = 9. -/
def rowList (b : Board) (y : Nat) : List Nat := (List.range W).map fun x => bget b y x

/-- The line of the board affected by an action at index i: a column for
Forward/Back, a row for Left/Right. -/
def lineOf (b : Board) (a : Action) (i : Nat) : List Nat :=
  match a with
  | .Forward | .Back => colList b i
  | .Left | .Right => rowList b i

/-- What the spec says the line must become: compacted against the low edge
(y = 0 for Forward, x = 0 for Left) or the high edge (Back, Right). -/
def compactedLine (a : Action) (l : List Nat) : List Nat :=
  match a with
  | .Forward | .Left => compactedLow l
  | .Back | .Right => compactedHigh l

/-- The multiset of non-empty tile values on the board. -/
def tileMultiset (b : Board) : Multiset Nat := ↑((cellsRM.map (bAt b)).filter nonZero)

/-- The number of non-empty cells. -/
def nonEmptyCount (b : Board) : Nat := ((cellsRM.map (bAt b)).filter nonZero).length

/-- The empty cells in row-major scan order. -/
def emptyCells (b : Board) : List Cell := cellsRM.filter fun p => decide (bAt b p = 0)

/-- Axis adjacency (4-neighbourhood) of two cells, as the spec words it. -/
def adjacent (p q : Cell) : Prop :=
  (p.1 = q.1 ∧ (p.2.val + 1 = q.2.val ∨ q.2.val + 1 = p.2.val)) ∨
  (p.2 = q.2 ∧ (p.1.val + 1 = q.1.val ∨ q.1.val + 1 = p.1.val))

/-- Two cells are connected when a chain of axis-adjacent equal-valued
cells joins them. -/
def connected (b : Board) : Cell → Cell → Prop :=
  Relation.ReflTransGen fun u v => adjacent u v ∧ bAt b u = bAt b v

/-- The maximal axis-connected equal-valued component containing a cell. -/
noncomputable def componentOf (b : Board) (p : Cell) : Finset Cell :=
  @Finset.filter _ (fun q => connected b p q) (Classical.decPred _) Finset.univ

/-- The maximal axis-connected components of the non-empty cells. -/
noncomputable def componentsOf (b : Board) : Finset (Finset Cell) :=
  (Finset.univ.filter fun p => bAt b p ≠ 0).image (componentOf b)

/-- The spec's score: the sum over maximal components of the squared
component size. -/
noncomputable def specScore (b : Board) : Nat := ∑ K ∈ componentsOf b, K.card ^ 2

/-- One step of the BFS expansion relation of get_group_size: v is an
in-bounds neighbour of u holding the searched value. -/
def stepR (b : Board) (candy : Nat) (u v : Cell) : Prop := v ∈ nbrs u ∧ bAt b v = candy

/-- BFS reachability from the start cell. -/
def reachR (b : Board) (candy : Nat) (p q : Cell) : Prop :=
  Relation.ReflTransGen (stepR b candy) p q

/-- The set of cells the BFS can reach from p. -/
noncomputable def reachSet (b : Board) (candy : Nat) (p : Cell) : Finset Cell :=
  @Finset.filter _ (fun q => reachR b candy p q) (Classical.decPred _) Finset.univ

/-- The cells in column-major order; a permutation of `cellsRM` used to
decompose the board into columns. -/
def cellsCM : List Cell :=
  (List.finRange W).flatMap fun x => (List.finRange H).map fun y => (y, x)

/-- The swap of two positions of a single line, with both reads taken from
the pre-swap line: the one-dimensional shadow of `swapV`. -/
def swapL (l : List Nat) (i j : Nat) : List Nat :=
  (l.set i (l.getD j 0)).set j (l.getD i 0)

/-- The one-dimensional shadow of `fwdStep`/`leftStep` on the affected
line. -/
def lineStepF (st : List Nat × Nat) (y : Nat) : List Nat × Nat :=
  if st.1.getD y 0 = 0 then st else (swapL st.1 y st.2, st.2 + 1)

/-- The one-dimensional shadow of `backStep`/`rightStep` on the affected
line. -/
def lineStepB (st : List Nat × Nat) (y : Nat) : List Nat × Nat :=
  if st.1.getD y 0 = 0 then st else (swapL st.1 y st.2, st.2 - 1)

/-- Shape invariant of the `checked` grid `[[bool; W]; H]`. -/
def IsGrid (ch : CheckGrid) : Prop := ch.length = H ∧ ∀ r ∈ ch, r.length = W

instance (p q : Cell) : Decidable (adjacent p q) := by
  unfold adjacent
  infer_instance

/-! ## Example boards for the score claims -/

/-- The empty board. -/
def emptyBoard : Board := List.replicate H (List.replicate W 0)

/-- A board whose 100 cells all hold tile value 1: one single group. -/
def fullBoard : Board := List.replicate H (List.replicate W 1)

/-- A board with exactly two disjoint groups: three cells of value 1 in row
0 and five cells of value 2 in row 5. -/
def twoGroupsBoard : Board :=
  [[1, 1, 1, 0, 0, 0, 0, 0, 0, 0],
   [0, 0, 0, 0, 0, 0, 0, 0, 0, 0],
   [0, 0, 0, 0, 0, 0, 0, 0, 0, 0],
   [0, 0, 0, 0, 0, 0, 0, 0, 0, 0],
   [0, 0, 0, 0, 0, 0, 0, 0, 0, 0],
   [0, 0, 0, 0, 0, 2, 2, 2, 2, 2],
   [0, 0, 0, 0, 0, 0, 0, 0, 0, 0],
   [0, 0, 0, 0, 0, 0, 0, 0, 0, 0],
   [0, 0, 0, 0, 0, 0, 0, 0, 0, 0],
   [0, 0, 0, 0, 0, 0, 0, 0, 0, 0]]

/-- A schedule whose first two values are 1 and 2, used as a witness
input. -/
def candiesEx : Nat → Nat := fun t => if t = 0 then 1 else 2

/-! ## Generic list helpers -/

lemma getD_set_self {α : Type} (l : List α) (i : Nat) (a d : α) (h : i < l.length) :
    (l.set i a).getD i d = a := by
  simp [List.getD_eq_getElem?_getD, List.getElem?_set, h]

lemma getD_set_ne {α : Type} (l : List α) {i j : Nat} (a : α) (d : α) (h : i ≠ j) :
    (l.set i a).getD j d = l.getD j d := by
  simp [List.getD_eq_getElem?_getD, List.getElem?_set, h]

lemma getD_append_self {α : Type} (l1 l2 : List α) (d : α) (m : Nat) :
    (l1 ++ l2).getD (l1.length + m) d = l2.getD m d := by
  rw [List.getD_append_right _ _ _ _ (by omega),
    show l1.length + m - l1.length = m from by omega]

lemma set_append_self {α : Type} (l1 l2 : List α) (a : α) (m : Nat) :
    (l1 ++ l2).set (l1.length + m) a = l1 ++ l2.set m a := by
  rw [List.set_append, if_neg (by omega),
    show l1.length + m - l1.length = m from by omega]

lemma filter_zero_length (l : List Nat) :
    (l.filter fun v => decide (v = 0)).length = l.length - (l.filter nonZero).length := by
  induction l with
  | nil => simp
  | cons v l ih =>
    have hle := List.length_filter_le nonZero l
    rw [List.filter_cons, List.filter_cons]
    simp only [nonZero, decide_eq_true_eq]
    by_cases hv : v = 0
    · rw [if_pos hv, if_neg (by omega)]
      simp only [List.length_cons]
      omega
    · rw [if_neg hv, if_pos hv]
      simp only [List.length_cons]
      omega

/-! ## One-dimensional characterization of the swap compaction -/

lemma swapL_length (l : List Nat) (i j : Nat) : (swapL l i j).length = l.length := by
  simp [swapL]

lemma swapL_self (l : List Nat) (i : Nat) : swapL l i i = l := by
  unfold swapL
  rw [List.set_set]
  rcases Nat.lt_or_ge i l.length with h | h
  · apply List.ext_getElem (by simp)
    intro n h1 h2
    rw [List.getElem_set]
    split
    · next heq => subst heq; exact List.getD_eq_getElem l 0 h2
    · rfl
  · exact List.set_eq_of_length_le h

lemma replicate_zero_cons (k : Nat) (R : List Nat) :
    List.replicate k (0 : Nat) ++ 0 :: R = List.replicate (k + 1) 0 ++ R := by
  rw [List.replicate_succ']
  simp

lemma swapL_shift (C R' : List Nat) (r : Nat) (k : Nat) :
    swapL (C ++ (List.replicate k 0 ++ r :: R')) (C.length + k) C.length =
      (C ++ [r]) ++ (List.replicate k 0 ++ R') := by
  cases k with
  | zero =>
    rw [show List.replicate 0 (0 : Nat) = [] from rfl]
    simp only [List.nil_append, Nat.add_zero]
    rw [swapL_self]
    simp
  | succ k2 =>
    unfold swapL
    have hget1 : (C ++ (List.replicate (k2 + 1) 0 ++ r :: R')).getD (C.length + (k2 + 1)) 0
        = r := by
      rw [getD_append_self]
      have h2 := getD_append_self (List.replicate (k2 + 1) (0 : Nat)) (r :: R') 0 0
      simp only [List.length_replicate, Nat.add_zero, List.getD_cons_zero] at h2
      exact h2
    have hget2 : (C ++ (List.replicate (k2 + 1) 0 ++ r :: R')).getD C.length 0 = 0 := by
      have h2 := getD_append_self C (List.replicate (k2 + 1) 0 ++ r :: R') 0 0
      simp only [Nat.add_zero] at h2
      rw [h2]
      simp [List.replicate_succ]
    rw [hget1, hget2]
    have hset1 : (C ++ (List.replicate (k2 + 1) 0 ++ r :: R')).set (C.length + (k2 + 1)) 0
        = C ++ (List.replicate (k2 + 1) 0 ++ 0 :: R') := by
      rw [set_append_self]
      congr 1
      have h2 := set_append_self (List.replicate (k2 + 1) (0 : Nat)) (r :: R') 0 0
      simp only [List.length_replicate, Nat.add_zero] at h2
      rw [h2]
      rfl
    rw [hset1]
    have hset2 : (C ++ (List.replicate (k2 + 1) 0 ++ 0 :: R')).set C.length r
        = C ++ (r :: (List.replicate k2 0 ++ 0 :: R')) := by
      have h2 := set_append_self C (List.replicate (k2 + 1) 0 ++ 0 :: R') r 0
      simp only [Nat.add_zero] at h2
      rw [h2]
      congr 1
    rw [hset2]
    rw [replicate_zero_cons k2 R']
    simp

lemma set_replicate_last (k : Nat) (C : List Nat) (r : Nat) :
    (List.replicate (k + 1) (0 : Nat) ++ C).set k r = List.replicate k 0 ++ (r :: C) := by
  induction k with
  | zero => rfl
  | succ k ih =>
    rw [List.replicate_succ, List.cons_append, List.set_cons_succ, ih,
      List.replicate_succ, List.cons_append]

lemma getD_replicate_zero (k i : Nat) (C : List Nat) :
    (List.replicate k (0 : Nat) ++ C).getD i 0 = if i < k then 0 else C.getD (i - k) 0 := by
  split
  · next h =>
    rw [List.getD_append _ _ _ _ (by simpa using h)]
    rw [List.getD_eq_getElem _ _ (by simpa using h), List.getElem_replicate]
  · next h =>
    rw [List.getD_append_right _ _ _ _ (by simp; omega)]
    simp

lemma swapL_shiftB (R' C : List Nat) (r : Nat) (k : Nat) :
    swapL (R' ++ (r :: (List.replicate k 0 ++ C))) R'.length (R'.length + k) =
      R' ++ (List.replicate k 0 ++ (r :: C)) := by
  cases k with
  | zero =>
    rw [show List.replicate 0 (0 : Nat) = [] from rfl]
    simp only [List.nil_append, Nat.add_zero]
    rw [swapL_self]
  | succ k2 =>
    unfold swapL
    have hget1 : (R' ++ (r :: (List.replicate (k2 + 1) 0 ++ C))).getD
        (R'.length + (k2 + 1)) 0 = 0 := by
      rw [getD_append_self, List.getD_cons_succ, getD_replicate_zero,
        if_pos (by omega)]
    have hget2 : (R' ++ (r :: (List.replicate (k2 + 1) 0 ++ C))).getD R'.length 0 = r := by
      have h2 := getD_append_self R' (r :: (List.replicate (k2 + 1) 0 ++ C)) 0 0
      simp only [Nat.add_zero, List.getD_cons_zero] at h2
      exact h2
    rw [hget1, hget2]
    have hset1 : (R' ++ (r :: (List.replicate (k2 + 1) 0 ++ C))).set R'.length 0
        = R' ++ (0 :: (List.replicate (k2 + 1) 0 ++ C)) := by
      have h2 := set_append_self R' (r :: (List.replicate (k2 + 1) 0 ++ C)) 0 0
      simp only [Nat.add_zero] at h2
      rw [h2]
      rfl
    rw [hset1]
    rw [set_append_self R' (0 :: (List.replicate (k2 + 1) 0 ++ C)) r (k2 + 1)]
    rw [List.set_cons_succ, set_replicate_last]
    rw [show (0 : Nat) :: (List.replicate k2 0 ++ (r :: C)) =
      List.replicate (k2 + 1) 0 ++ (r :: C) from by rw [List.replicate_succ]; rfl]

lemma lineF_go : ∀ (R C : List Nat) (k : Nat), (∀ c ∈ C, c ≠ 0) →
    (List.range' (C.length + k) R.length).foldl lineStepF
        (C ++ (List.replicate k 0 ++ R), C.length) =
      (C ++ (R.filter nonZero ++
        List.replicate (k + (R.filter fun v => decide (v = 0)).length) 0),
       C.length + (R.filter nonZero).length) := by
  intro R
  induction R with
  | nil => intro C k h; simp
  | cons r R' ih =>
    intro C k h
    rw [show (r :: R').length = R'.length + 1 from rfl, List.range'_succ, List.foldl_cons]
    have hget : (C ++ (List.replicate k 0 ++ r :: R')).getD (C.length + k) 0 = r := by
      rw [getD_append_self]
      have h2 := getD_append_self (List.replicate k (0 : Nat)) (r :: R') 0 0
      simp only [List.length_replicate, Nat.add_zero, List.getD_cons_zero] at h2
      exact h2
    by_cases hr : r = 0
    · subst hr
      simp only [lineStepF]
      rw [if_pos hget, replicate_zero_cons k R']
      have hih := ih C (k + 1) h
      rw [show C.length + (k + 1) = C.length + k + 1 from by omega] at hih
      rw [hih, Prod.mk.injEq]
      refine ⟨?_, ?_⟩
      · rw [show List.filter nonZero (0 :: R') = List.filter nonZero R' from rfl,
          show List.filter (fun v => decide (v = 0)) (0 :: R')
            = 0 :: List.filter (fun v => decide (v = 0)) R' from rfl,
          List.length_cons]
        have hz : k + 1 + (List.filter (fun v => decide (v = 0)) R').length
            = k + ((List.filter (fun v => decide (v = 0)) R').length + 1) := by omega
        rw [hz]
      · rw [show List.filter nonZero (0 :: R') = List.filter nonZero R' from rfl]
    · simp only [lineStepF]
      rw [if_neg (by rw [hget]; exact hr)]
      rw [swapL_shift C R' r k]
      have hC : ∀ c ∈ C ++ [r], c ≠ 0 := by
        intro c hc
        rcases List.mem_append.1 hc with hc | hc
        · exact h c hc
        · simp only [List.mem_singleton] at hc; subst hc; exact hr
      have hih := ih (C ++ [r]) k hC
      have hlen : (C ++ [r]).length = C.length + 1 := by simp
      rw [hlen, show C.length + 1 + k = C.length + k + 1 from by omega] at hih
      rw [hih, Prod.mk.injEq]
      refine ⟨?_, ?_⟩
      · rw [List.filter_cons, List.filter_cons]
        simp only [nonZero, decide_eq_true_eq]
        rw [if_pos hr, if_neg hr]
        simp [List.append_assoc]
      · rw [List.filter_cons]
        simp only [nonZero, decide_eq_true_eq]
        rw [if_pos hr, List.length_cons]
        omega

lemma lineF_spec (l : List Nat) :
    (List.range l.length).foldl lineStepF (l, 0) =
      (compactedLow l, (l.filter nonZero).length) := by
  have := lineF_go l [] 0 (by simp)
  simp only [List.length_nil, Nat.zero_add, List.replicate_zero, List.nil_append] at this
  rw [List.range_eq_range']
  rw [this]
  unfold compactedLow
  rw [filter_zero_length]

lemma lineB_go : ∀ (R C : List Nat) (k : Nat), (∀ c ∈ C, c ≠ 0) →
    (((List.range R.length).reverse).foldl lineStepB
        (R ++ (List.replicate k 0 ++ C), R.length + k - 1)).1 =
      List.replicate (k + (R.filter fun v => decide (v = 0)).length) 0 ++
        (R.filter nonZero ++ C) := by
  intro R
  induction R using List.reverseRecOn with
  | nil => intro C k h; simp
  | append_singleton R' r ih =>
    intro C k h
    rw [show (R' ++ [r]).length = R'.length + 1 from by simp]
    rw [List.range_succ, List.reverse_append, List.reverse_singleton, List.singleton_append,
      List.foldl_cons]
    have hget : ((R' ++ [r]) ++ (List.replicate k 0 ++ C)).getD R'.length 0 = r := by
      rw [List.append_assoc, List.singleton_append]
      have h2 := getD_append_self R' (r :: (List.replicate k 0 ++ C)) 0 0
      simp only [Nat.add_zero, List.getD_cons_zero] at h2
      exact h2
    by_cases hr : r = 0
    · subst hr
      simp only [lineStepB]
      rw [if_pos hget]
      rw [List.append_assoc, List.singleton_append,
        show (0 : Nat) :: (List.replicate k 0 ++ C) = List.replicate (k + 1) 0 ++ C from by
          rw [List.replicate_succ, List.cons_append]]
      have hih := ih C (k + 1) h
      rw [show R'.length + (k + 1) - 1 = R'.length + 1 + k - 1 from by omega] at hih
      rw [hih]
      rw [List.filter_append, List.filter_append,
        show List.filter nonZero [0] = [] from rfl,
        show List.filter (fun v => decide (v = 0)) [0] = [0] from rfl,
        List.append_nil, List.length_append,
        show ([(0 : Nat)]).length = 1 from rfl]
      have hz : k + 1 + (List.filter (fun v => decide (v = 0)) R').length
          = k + ((List.filter (fun v => decide (v = 0)) R').length + 1) := by omega
      rw [hz]
    · simp only [lineStepB]
      rw [if_neg (by rw [hget]; exact hr)]
      have hsw : swapL ((R' ++ [r]) ++ (List.replicate k 0 ++ C)) R'.length
          (R'.length + 1 + k - 1) = R' ++ (List.replicate k 0 ++ (r :: C)) := by
        rw [show R'.length + 1 + k - 1 = R'.length + k from by omega]
        rw [List.append_assoc, List.singleton_append]
        exact swapL_shiftB R' C r k
      rw [hsw]
      have hih := ih (r :: C) k (by
        intro c hc
        rcases List.mem_cons.1 hc with hc | hc
        · subst hc; exact hr
        · exact h c hc)
      rw [show R'.length + 1 + k - 1 - 1 = R'.length + k - 1 from by omega]
      rw [hih]
      rw [List.filter_append, List.filter_append,
        show List.filter nonZero [r] = [r] from by simp [nonZero, hr],
        show List.filter (fun v => decide (v = 0)) [r] = [] from by simp [hr],
        List.append_nil]
      simp [List.append_assoc]

lemma lineB_spec (l : List Nat) :
    (((List.range l.length).reverse).foldl lineStepB (l, l.length - 1)).1 =
      compactedHigh l := by
  have := lineB_go l [] 0 (by simp)
  simp only [List.replicate_zero, List.nil_append, List.append_nil, Nat.add_zero] at this
  rw [this]
  unfold compactedHigh
  rw [filter_zero_length]
  simp

/-! ## Board cell lemmas -/

lemma row_length (b : Board) (y : Nat) (hb : IsBoard b) (hy : y < H) :
    (b.getD y []).length = W := by
  rw [List.getD_eq_getElem b [] (by rw [hb.1]; exact hy)]
  exact hb.2 _ (List.getElem_mem _)

lemma bget_oob_row (b : Board) (y x : Nat) (hb : IsBoard b) (hy : H ≤ y) : bget b y x = 0 := by
  unfold bget
  rw [List.getD_eq_default b [] (show b.length ≤ y from by rw [hb.1]; exact hy)]
  rfl

lemma bget_oob_col (b : Board) (y x : Nat) (hb : IsBoard b) (hx : W ≤ x) : bget b y x = 0 := by
  rcases Nat.lt_or_ge y H with hy | hy
  · unfold bget
    exact List.getD_eq_default _ _ (by rw [row_length b y hb hy]; exact hx)
  · exact bget_oob_row b y x hb hy

lemma isBoard_bset (b : Board) (y x v : Nat) (hb : IsBoard b) : IsBoard (bset b y x v) := by
  rcases Nat.lt_or_ge y H with hy | hy
  · constructor
    · simp [bset, hb.1]
    · intro r hr
      rcases List.mem_or_eq_of_mem_set hr with hr | hr
      · exact hb.2 r hr
      · subst hr
        rw [List.length_set]
        exact row_length b y hb hy
  · rw [show bset b y x v = b from List.set_eq_of_length_le (by rw [hb.1]; exact hy)]
    exact hb

lemma bget_bset (b : Board) (y x v y' x' : Nat) (hb : IsBoard b) (hy : y < H) :
    bget (bset b y x v) y' x' = if y = y' ∧ x = x' ∧ x < W then v else bget b y' x' := by
  unfold bget bset
  by_cases hyy : y = y'
  · subst hyy
    rw [getD_set_self _ _ _ _ (by rw [hb.1]; exact hy)]
    by_cases hxx : x = x'
    · subst hxx
      by_cases hxw : x < W
      · rw [getD_set_self _ _ _ _ (by rw [row_length b y hb hy]; exact hxw)]
        rw [if_pos ⟨rfl, rfl, hxw⟩]
      · rw [List.set_eq_of_length_le (by rw [row_length b y hb hy]; omega)]
        rw [if_neg (by tauto)]
    · rw [getD_set_ne _ _ _ hxx]
      rw [if_neg (by tauto)]
  · rw [getD_set_ne _ _ _ hyy]
    rw [if_neg (by tauto)]

/-! ## Column and row value lists -/

lemma colList_length (b : Board) (x : Nat) : (colList b x).length = H := by
  simp [colList]

lemma rowList_length (b : Board) (y : Nat) : (rowList b y).length = W := by
  simp [rowList]

lemma colList_getD (b : Board) (x y : Nat) (hy : y < H) :
    (colList b x).getD y 0 = bget b y x := by
  unfold colList
  have h1 : y < ((List.range H).map fun y => bget b y x).length := by simpa using hy
  rw [List.getD_eq_getElem _ _ h1, List.getElem_map, List.getElem_range]

lemma rowList_getD (b : Board) (y x : Nat) (hx : x < W) :
    (rowList b y).getD x 0 = bget b y x := by
  unfold rowList
  have h1 : x < ((List.range W).map fun x => bget b y x).length := by simpa using hx
  rw [List.getD_eq_getElem _ _ h1, List.getElem_map, List.getElem_range]

lemma colList_congr (b1 b2 : Board) (x : Nat)
    (h : ∀ y, y < H → bget b1 y x = bget b2 y x) : colList b1 x = colList b2 x := by
  unfold colList
  exact List.map_congr_left fun y hy => h y (List.mem_range.1 hy)

lemma rowList_congr (b1 b2 : Board) (y : Nat)
    (h : ∀ x, x < W → bget b1 y x = bget b2 y x) : rowList b1 y = rowList b2 y := by
  unfold rowList
  exact List.map_congr_left fun x hx => h x (List.mem_range.1 hx)

lemma list_ext_getD (l1 l2 : List Nat) (hlen : l1.length = l2.length)
    (h : ∀ n, n < l1.length → l1.getD n 0 = l2.getD n 0) : l1 = l2 := by
  apply List.ext_getElem hlen
  intro n h1 h2
  have h3 := h n h1
  rwa [List.getD_eq_getElem _ _ h1, List.getD_eq_getElem _ _ h2] at h3

lemma swapL_getD (l : List Nat) (i j n : Nat) (hn : n < l.length) :
    (swapL l i j).getD n 0 =
      if j = n then l.getD i 0 else if i = n then l.getD j 0 else l.getD n 0 := by
  unfold swapL
  by_cases hjn : j = n
  · subst hjn
    rw [getD_set_self _ _ _ _ (by simpa using hn), if_pos rfl]
  · rw [getD_set_ne _ _ _ hjn]
    by_cases hin : i = n
    · subst hin
      rw [getD_set_self _ _ _ _ hn, if_neg hjn, if_pos rfl]
    · rw [getD_set_ne _ _ _ hin, if_neg hjn, if_neg hin]

/-! ## The swaps of the compaction loops act on a single line -/

lemma swap_col (b : Board) (x y d : Nat) (hb : IsBoard b) (hx : x < W) (hy : y < H) :
    IsBoard (swapV b y x d x) ∧
    colList (swapV b y x d x) x = swapL (colList b x) y d ∧
    ∀ x', x' ≠ x → colList (swapV b y x d x) x' = colList b x' := by
  have hb2 : IsBoard (bset b y x (bget b d x)) := isBoard_bset _ _ _ _ hb
  rcases Nat.lt_or_ge d H with hd | hd
  · refine ⟨isBoard_bset _ _ _ _ hb2, ?_, ?_⟩
    · apply list_ext_getD _ _ (by rw [colList_length, swapL_length, colList_length])
      intro n hn'
      have hn : n < H := by rwa [colList_length] at hn'
      rw [colList_getD _ _ _ hn]
      rw [swapL_getD _ _ _ _ (by rwa [colList_length])]
      unfold swapV
      rw [bget_bset _ _ _ _ _ _ hb2 hd, bget_bset _ _ _ _ _ _ hb hy]
      by_cases hdn : d = n
      · rw [if_pos ⟨hdn, rfl, hx⟩, if_pos hdn, colList_getD _ _ _ hy]
      · rw [if_neg (by tauto), if_neg hdn]
        by_cases hyn : y = n
        · rw [if_pos ⟨hyn, rfl, hx⟩, if_pos hyn, colList_getD _ _ _ hd]
        · rw [if_neg (by tauto), if_neg hyn, colList_getD _ _ _ hn]
    · intro x' hx'
      apply colList_congr
      intro y'' hy''
      unfold swapV
      rw [bget_bset _ _ _ _ _ _ hb2 hd, bget_bset _ _ _ _ _ _ hb hy]
      rw [if_neg (by tauto), if_neg (by tauto)]
  · have heq : swapV b y x d x = bset b y x 0 := by
      unfold swapV
      rw [bget_oob_row b d x hb hd]
      rw [show bset (bset b y x 0) d x (bget b y x) = bset b y x 0 from
        List.set_eq_of_length_le (by
          show (bset b y x 0).length ≤ d
          rw [(isBoard_bset b y x 0 hb).1]
          exact hd)]
    refine ⟨heq ▸ isBoard_bset _ _ _ _ hb, ?_, ?_⟩
    · rw [heq]
      apply list_ext_getD _ _ (by rw [colList_length, swapL_length, colList_length])
      intro n hn'
      have hn : n < H := by rwa [colList_length] at hn'
      rw [colList_getD _ _ _ hn]
      rw [swapL_getD _ _ _ _ (by rwa [colList_length])]
      rw [bget_bset _ _ _ _ _ _ hb hy]
      rw [if_neg (show ¬ d = n from by omega)]
      by_cases hyn : y = n
      · rw [if_pos ⟨hyn, rfl, hx⟩, if_pos hyn]
        rw [List.getD_eq_default _ _ (by rw [colList_length]; exact hd)]
      · rw [if_neg (by tauto), if_neg hyn, colList_getD _ _ _ hn]
    · intro x' hx'
      rw [heq]
      apply colList_congr
      intro y'' hy''
      rw [bget_bset _ _ _ _ _ _ hb hy]
      rw [if_neg (by tauto)]

lemma swap_row (b : Board) (y x d : Nat) (hb : IsBoard b) (hy : y < H) (hx : x < W) :
    IsBoard (swapV b y x y d) ∧
    rowList (swapV b y x y d) y = swapL (rowList b y) x d ∧
    ∀ y', y' ≠ y → rowList (swapV b y x y d) y' = rowList b y' := by
  have hb2 : IsBoard (bset b y x (bget b y d)) := isBoard_bset _ _ _ _ hb
  refine ⟨isBoard_bset _ _ _ _ hb2, ?_, ?_⟩
  · apply list_ext_getD _ _ (by rw [rowList_length, swapL_length, rowList_length])
    intro n hn'
    have hn : n < W := by rwa [rowList_length] at hn'
    rw [rowList_getD _ _ _ hn]
    rw [swapL_getD _ _ _ _ (by rwa [rowList_length])]
    unfold swapV
    rw [bget_bset _ _ _ _ _ _ hb2 hy, bget_bset _ _ _ _ _ _ hb hy]
    by_cases hdn : d = n
    · rw [if_pos ⟨rfl, hdn, by omega⟩, if_pos hdn, rowList_getD _ _ _ hx]
    · rw [if_neg (by tauto), if_neg hdn]
      by_cases hxn : x = n
      · rw [if_pos ⟨rfl, hxn, hx⟩, if_pos hxn]
        rcases Nat.lt_or_ge d W with hd | hd
        · rw [rowList_getD _ _ _ hd]
        · rw [List.getD_eq_default _ _ (by rw [rowList_length]; exact hd)]
          exact bget_oob_col b y d hb hd
      · rw [if_neg (by tauto), if_neg hxn, rowList_getD _ _ _ hn]
  · intro y' hy'
    apply rowList_congr
    intro x'' hx''
    unfold swapV
    rw [bget_bset _ _ _ _ _ _ hb2 hy, bget_bset _ _ _ _ _ _ hb hy]
    rw [if_neg (by tauto), if_neg (by tauto)]

/-! ## Bridging the two-dimensional loops to the one-dimensional ones -/

lemma fold_col_bridge (f : Nat → Nat) (x : Nat) (hx : x < W) :
    ∀ (idxs : List Nat) (b : Board) (dest : Nat), IsBoard b → (∀ y ∈ idxs, y < H) →
      IsBoard ((idxs.foldl (fun st y => if bget st.1 y x = 0 then st
          else (swapV st.1 y x st.2 x, f st.2)) (b, dest)).1) ∧
      colList ((idxs.foldl (fun st y => if bget st.1 y x = 0 then st
          else (swapV st.1 y x st.2 x, f st.2)) (b, dest)).1) x =
        ((idxs.foldl (fun st y => if st.1.getD y 0 = 0 then st
          else (swapL st.1 y st.2, f st.2)) (colList b x, dest)).1) ∧
      ∀ x', x' ≠ x → colList ((idxs.foldl (fun st y => if bget st.1 y x = 0 then st
          else (swapV st.1 y x st.2 x, f st.2)) (b, dest)).1) x' = colList b x' := by
  intro idxs
  induction idxs with
  | nil =>
    intro b dest hb _
    exact ⟨hb, rfl, fun _ _ => rfl⟩
  | cons y idxs ih =>
    intro b dest hb hmem
    have hy : y < H := hmem y (List.mem_cons_self _ _)
    simp only [List.foldl_cons]
    by_cases h0 : bget b y x = 0
    · rw [if_pos h0, if_pos (by rw [colList_getD b x y hy]; exact h0)]
      exact ih b dest hb fun z hz => hmem z (List.mem_cons_of_mem _ hz)
    · rw [if_neg h0, if_neg (by rw [colList_getD b x y hy]; exact h0)]
      obtain ⟨hb', hcol, hframe⟩ := swap_col b x y dest hb hx hy
      have ihh := ih (swapV b y x dest x) (f dest) hb'
        (fun z hz => hmem z (List.mem_cons_of_mem _ hz))
      refine ⟨ihh.1, ?_, ?_⟩
      · rw [ihh.2.1, hcol]
      · intro x' hx'
        rw [ihh.2.2 x' hx', hframe x' hx']

lemma fold_row_bridge (f : Nat → Nat) (y : Nat) (hy : y < H) :
    ∀ (idxs : List Nat) (b : Board) (dest : Nat), IsBoard b → (∀ x ∈ idxs, x < W) →
      IsBoard ((idxs.foldl (fun st x => if bget st.1 y x = 0 then st
          else (swapV st.1 y x y st.2, f st.2)) (b, dest)).1) ∧
      rowList ((idxs.foldl (fun st x => if bget st.1 y x = 0 then st
          else (swapV st.1 y x y st.2, f st.2)) (b, dest)).1) y =
        ((idxs.foldl (fun st x => if st.1.getD x 0 = 0 then st
          else (swapL st.1 x st.2, f st.2)) (rowList b y, dest)).1) ∧
      ∀ y', y' ≠ y → rowList ((idxs.foldl (fun st x => if bget st.1 y x = 0 then st
          else (swapV st.1 y x y st.2, f st.2)) (b, dest)).1) y' = rowList b y' := by
  intro idxs
  induction idxs with
  | nil =>
    intro b dest hb _
    exact ⟨hb, rfl, fun _ _ => rfl⟩
  | cons x idxs ih =>
    intro b dest hb hmem
    have hx : x < W := hmem x (List.mem_cons_self _ _)
    simp only [List.foldl_cons]
    by_cases h0 : bget b y x = 0
    · rw [if_pos h0, if_pos (by rw [rowList_getD b y x hx]; exact h0)]
      exact ih b dest hb fun z hz => hmem z (List.mem_cons_of_mem _ hz)
    · rw [if_neg h0, if_neg (by rw [rowList_getD b y x hx]; exact h0)]
      obtain ⟨hb', hrow, hframe⟩ := swap_row b y x dest hb hy hx
      have ihh := ih (swapV b y x y dest) (f dest) hb'
        (fun z hz => hmem z (List.mem_cons_of_mem _ hz))
      refine ⟨ihh.1, ?_, ?_⟩
      · rw [ihh.2.1, hrow]
      · intro y' hy'
        rw [ihh.2.2 y' hy', hframe y' hy']

lemma lineF_spec' (l : List Nat) (n : Nat) (hn : l.length = n) :
    (List.range n).foldl lineStepF (l, 0) = (compactedLow l, (l.filter nonZero).length) := by
  subst hn
  exact lineF_spec l

lemma lineB_spec' (l : List Nat) (n : Nat) (hn : l.length = n) :
    (((List.range n).reverse).foldl lineStepB (l, n - 1)).1 = compactedHigh l := by
  subst hn
  exact lineB_spec l

/-! ## What advance does to every line of the board -/

lemma advF_board : ∀ (xs : List Nat) (b : Board), IsBoard b → (∀ x ∈ xs, x < W) → xs.Nodup →
    IsBoard (xs.foldl (fun bd x => ((List.range H).foldl (fwdStep x) (bd, 0)).1) b) ∧
    ∀ x : Nat,
      (x ∈ xs → colList (xs.foldl (fun bd x => ((List.range H).foldl (fwdStep x) (bd, 0)).1) b) x
        = compactedLow (colList b x)) ∧
      (x ∉ xs → colList (xs.foldl (fun bd x => ((List.range H).foldl (fwdStep x) (bd, 0)).1) b) x
        = colList b x) := by
  intro xs
  induction xs with
  | nil =>
    intro b hb _ _
    exact ⟨hb, fun x => ⟨fun hx => absurd hx (List.not_mem_nil x), fun _ => rfl⟩⟩
  | cons x0 xs ih =>
    intro b hb hmem hnd
    have hx0 : x0 < W := hmem _ (List.mem_cons_self _ _)
    obtain ⟨hx0n, hnd'⟩ := List.nodup_cons.1 hnd
    simp only [List.foldl_cons]
    have hbr := fold_col_bridge (fun d => d + 1) x0 hx0 (List.range H) b 0 hb
      (fun z hz => List.mem_range.1 hz)
    have hid : (List.range H).foldl (fwdStep x0) (b, 0)
        = (List.range H).foldl (fun st y => if bget st.1 y x0 = 0 then st
            else (swapV st.1 y x0 st.2 x0, (fun d => d + 1) st.2)) (b, 0) := rfl
    rw [hid]
    obtain ⟨hb1, hcol, hframe⟩ := hbr
    have hcomp : colList ((List.range H).foldl (fun st y => if bget st.1 y x0 = 0 then st
        else (swapV st.1 y x0 st.2 x0, (fun d => d + 1) st.2)) (b, 0)).1 x0
        = compactedLow (colList b x0) := by
      rw [hcol]
      have hl := lineF_spec' (colList b x0) H (colList_length b x0)
      have hid2 : (List.range H).foldl (fun st y => if st.1.getD y 0 = 0 then st
          else (swapL st.1 y st.2, (fun d => d + 1) st.2)) (colList b x0, 0)
          = (List.range H).foldl lineStepF (colList b x0, 0) := rfl
      rw [hid2, hl]
    set b1 := ((List.range H).foldl (fun st y => if bget st.1 y x0 = 0 then st
        else (swapV st.1 y x0 st.2 x0, (fun d => d + 1) st.2)) (b, 0)).1 with hb1def
    have ihh := ih b1 hb1 (fun z hz => hmem z (List.mem_cons_of_mem _ hz)) hnd'
    refine ⟨ihh.1, fun x => ⟨?_, ?_⟩⟩
    · intro hxmem
      rcases List.mem_cons.1 hxmem with hxx | hxx
      · subst hxx
        rw [(ihh.2 x).2 hx0n, hcomp]
      · have hxne : x ≠ x0 := fun hcontra => hx0n (hcontra ▸ hxx)
        rw [(ihh.2 x).1 hxx, hframe x hxne]
    · intro hxmem
      have hxne : x ≠ x0 := fun hcontra => hxmem (hcontra ▸ List.mem_cons_self x0 xs)
      rw [(ihh.2 x).2 (fun hc => hxmem (List.mem_cons_of_mem _ hc)), hframe x hxne]

lemma advB_board : ∀ (xs : List Nat) (b : Board), IsBoard b → (∀ x ∈ xs, x < W) → xs.Nodup →
    IsBoard (xs.foldl
      (fun bd x => (((List.range H).reverse).foldl (backStep x) (bd, H - 1)).1) b) ∧
    ∀ x : Nat,
      (x ∈ xs → colList (xs.foldl
          (fun bd x => (((List.range H).reverse).foldl (backStep x) (bd, H - 1)).1) b) x
        = compactedHigh (colList b x)) ∧
      (x ∉ xs → colList (xs.foldl
          (fun bd x => (((List.range H).reverse).foldl (backStep x) (bd, H - 1)).1) b) x
        = colList b x) := by
  intro xs
  induction xs with
  | nil =>
    intro b hb _ _
    exact ⟨hb, fun x => ⟨fun hx => absurd hx (List.not_mem_nil x), fun _ => rfl⟩⟩
  | cons x0 xs ih =>
    intro b hb hmem hnd
    have hx0 : x0 < W := hmem _ (List.mem_cons_self _ _)
    obtain ⟨hx0n, hnd'⟩ := List.nodup_cons.1 hnd
    simp only [List.foldl_cons]
    have hbr := fold_col_bridge (fun d => d - 1) x0 hx0 ((List.range H).reverse) b (H - 1) hb
      (fun z hz => List.mem_range.1 (List.mem_reverse.1 hz))
    have hid : ((List.range H).reverse).foldl (backStep x0) (b, H - 1)
        = ((List.range H).reverse).foldl (fun st y => if bget st.1 y x0 = 0 then st
            else (swapV st.1 y x0 st.2 x0, (fun d => d - 1) st.2)) (b, H - 1) := rfl
    rw [hid]
    obtain ⟨hb1, hcol, hframe⟩ := hbr
    have hcomp : colList (((List.range H).reverse).foldl (fun st y => if bget st.1 y x0 = 0
        then st else (swapV st.1 y x0 st.2 x0, (fun d => d - 1) st.2)) (b, H - 1)).1 x0
        = compactedHigh (colList b x0) := by
      rw [hcol]
      have hl := lineB_spec' (colList b x0) H (colList_length b x0)
      have hid2 : ((List.range H).reverse).foldl (fun st y => if st.1.getD y 0 = 0 then st
          else (swapL st.1 y st.2, (fun d => d - 1) st.2)) (colList b x0, H - 1)
          = ((List.range H).reverse).foldl lineStepB (colList b x0, H - 1) := rfl
      rw [hid2, hl]
    set b1 := (((List.range H).reverse).foldl (fun st y => if bget st.1 y x0 = 0 then st
        else (swapV st.1 y x0 st.2 x0, (fun d => d - 1) st.2)) (b, H - 1)).1 with hb1def
    have ihh := ih b1 hb1 (fun z hz => hmem z (List.mem_cons_of_mem _ hz)) hnd'
    refine ⟨ihh.1, fun x => ⟨?_, ?_⟩⟩
    · intro hxmem
      rcases List.mem_cons.1 hxmem with hxx | hxx
      · subst hxx
        rw [(ihh.2 x).2 hx0n, hcomp]
      · have hxne : x ≠ x0 := fun hcontra => hx0n (hcontra ▸ hxx)
        rw [(ihh.2 x).1 hxx, hframe x hxne]
    · intro hxmem
      have hxne : x ≠ x0 := fun hcontra => hxmem (hcontra ▸ List.mem_cons_self x0 xs)
      rw [(ihh.2 x).2 (fun hc => hxmem (List.mem_cons_of_mem _ hc)), hframe x hxne]

lemma advL_board : ∀ (ys : List Nat) (b : Board), IsBoard b → (∀ y ∈ ys, y < H) → ys.Nodup →
    IsBoard (ys.foldl (fun bd y => ((List.range W).foldl (leftStep y) (bd, 0)).1) b) ∧
    ∀ y : Nat,
      (y ∈ ys → rowList (ys.foldl (fun bd y => ((List.range W).foldl (leftStep y) (bd, 0)).1) b) y
        = compactedLow (rowList b y)) ∧
      (y ∉ ys → rowList (ys.foldl (fun bd y => ((List.range W).foldl (leftStep y) (bd, 0)).1) b) y
        = rowList b y) := by
  intro ys
  induction ys with
  | nil =>
    intro b hb _ _
    exact ⟨hb, fun y => ⟨fun hy => absurd hy (List.not_mem_nil y), fun _ => rfl⟩⟩
  | cons y0 ys ih =>
    intro b hb hmem hnd
    have hy0 : y0 < H := hmem _ (List.mem_cons_self _ _)
    obtain ⟨hy0n, hnd'⟩ := List.nodup_cons.1 hnd
    simp only [List.foldl_cons]
    have hbr := fold_row_bridge (fun d => d + 1) y0 hy0 (List.range W) b 0 hb
      (fun z hz => List.mem_range.1 hz)
    have hid : (List.range W).foldl (leftStep y0) (b, 0)
        = (List.range W).foldl (fun st x => if bget st.1 y0 x = 0 then st
            else (swapV st.1 y0 x y0 st.2, (fun d => d + 1) st.2)) (b, 0) := rfl
    rw [hid]
    obtain ⟨hb1, hrow, hframe⟩ := hbr
    have hcomp : rowList ((List.range W).foldl (fun st x => if bget st.1 y0 x = 0 then st
        else (swapV st.1 y0 x y0 st.2, (fun d => d + 1) st.2)) (b, 0)).1 y0
        = compactedLow (rowList b y0) := by
      rw [hrow]
      have hl := lineF_spec' (rowList b y0) W (rowList_length b y0)
      have hid2 : (List.range W).foldl (fun st x => if st.1.getD x 0 = 0 then st
          else (swapL st.1 x st.2, (fun d => d + 1) st.2)) (rowList b y0, 0)
          = (List.range W).foldl lineStepF (rowList b y0, 0) := rfl
      rw [hid2, hl]
    set b1 := ((List.range W).foldl (fun st x => if bget st.1 y0 x = 0 then st
        else (swapV st.1 y0 x y0 st.2, (fun d => d + 1) st.2)) (b, 0)).1 with hb1def
    have ihh := ih b1 hb1 (fun z hz => hmem z (List.mem_cons_of_mem _ hz)) hnd'
    refine ⟨ihh.1, fun y => ⟨?_, ?_⟩⟩
    · intro hymem
      rcases List.mem_cons.1 hymem with hyy | hyy
      · subst hyy
        rw [(ihh.2 y).2 hy0n, hcomp]
      · have hyne : y ≠ y0 := fun hcontra => hy0n (hcontra ▸ hyy)
        rw [(ihh.2 y).1 hyy, hframe y hyne]
    · intro hymem
      have hyne : y ≠ y0 := fun hcontra => hymem (hcontra ▸ List.mem_cons_self y0 ys)
      rw [(ihh.2 y).2 (fun hc => hymem (List.mem_cons_of_mem _ hc)), hframe y hyne]

lemma advR_board : ∀ (ys : List Nat) (b : Board), IsBoard b → (∀ y ∈ ys, y < H) → ys.Nodup →
    IsBoard (ys.foldl
      (fun bd y => (((List.range W).reverse).foldl (rightStep y) (bd, W - 1)).1) b) ∧
    ∀ y : Nat,
      (y ∈ ys → rowList (ys.foldl
          (fun bd y => (((List.range W).reverse).foldl (rightStep y) (bd, W - 1)).1) b) y
        = compactedHigh (rowList b y)) ∧
      (y ∉ ys → rowList (ys.foldl
          (fun bd y => (((List.range W).reverse).foldl (rightStep y) (bd, W - 1)).1) b) y
        = rowList b y) := by
  intro ys
  induction ys with
  | nil =>
    intro b hb _ _
    exact ⟨hb, fun y => ⟨fun hy => absurd hy (List.not_mem_nil y), fun _ => rfl⟩⟩
  | cons y0 ys ih =>
    intro b hb hmem hnd
    have hy0 : y0 < H := hmem _ (List.mem_cons_self _ _)
    obtain ⟨hy0n, hnd'⟩ := List.nodup_cons.1 hnd
    simp only [List.foldl_cons]
    have hbr := fold_row_bridge (fun d => d - 1) y0 hy0 ((List.range W).reverse) b (W - 1) hb
      (fun z hz => List.mem_range.1 (List.mem_reverse.1 hz))
    have hid : ((List.range W).reverse).foldl (rightStep y0) (b, W - 1)
        = ((List.range W).reverse).foldl (fun st x => if bget st.1 y0 x = 0 then st
            else (swapV st.1 y0 x y0 st.2, (fun d => d - 1) st.2)) (b, W - 1) := rfl
    rw [hid]
    obtain ⟨hb1, hrow, hframe⟩ := hbr
    have hcomp : rowList (((List.range W).reverse).foldl (fun st x => if bget st.1 y0 x = 0
        then st else (swapV st.1 y0 x y0 st.2, (fun d => d - 1) st.2)) (b, W - 1)).1 y0
        = compactedHigh (rowList b y0) := by
      rw [hrow]
      have hl := lineB_spec' (rowList b y0) W (rowList_length b y0)
      have hid2 : ((List.range W).reverse).foldl (fun st x => if st.1.getD x 0 = 0 then st
          else (swapL st.1 x st.2, (fun d => d - 1) st.2)) (rowList b y0, W - 1)
          = ((List.range W).reverse).foldl lineStepB (rowList b y0, W - 1) := rfl
      rw [hid2, hl]
    set b1 := (((List.range W).reverse).foldl (fun st x => if bget st.1 y0 x = 0 then st
        else (swapV st.1 y0 x y0 st.2, (fun d => d - 1) st.2)) (b, W - 1)).1 with hb1def
    have ihh := ih b1 hb1 (fun z hz => hmem z (List.mem_cons_of_mem _ hz)) hnd'
    refine ⟨ihh.1, fun y => ⟨?_, ?_⟩⟩
    · intro hymem
      rcases List.mem_cons.1 hymem with hyy | hyy
      · subst hyy
        rw [(ihh.2 y).2 hy0n, hcomp]
      · have hyne : y ≠ y0 := fun hcontra => hy0n (hcontra ▸ hyy)
        rw [(ihh.2 y).1 hyy, hframe y hyne]
    · intro hymem
      have hyne : y ≠ y0 := fun hcontra => hymem (hcontra ▸ List.mem_cons_self y0 ys)
      rw [(ihh.2 y).2 (fun hc => hymem (List.mem_cons_of_mem _ hc)), hframe y hyne]

/-- What State::advance does, per action: shape is preserved and every
affected line is compacted. -/
lemma advance_forward (s : State) (hb : IsBoard s.board) :
    IsBoard (s.advance Action.Forward).board ∧
    ∀ x, x < W →
      colList (s.advance Action.Forward).board x = compactedLow (colList s.board x) := by
  have hsame : (s.advance Action.Forward).board = fwdBoard s.board := by
    simp only [State.advance]
  rw [hsame]
  unfold fwdBoard
  have h := advF_board (List.range W) s.board hb (fun x hx => List.mem_range.1 hx)
    (List.nodup_range W)
  exact ⟨h.1, fun x hx => (h.2 x).1 (List.mem_range.2 hx)⟩

lemma advance_back (s : State) (hb : IsBoard s.board) :
    IsBoard (s.advance Action.Back).board ∧
    ∀ x, x < W →
      colList (s.advance Action.Back).board x = compactedHigh (colList s.board x) := by
  have hsame : (s.advance Action.Back).board = backBoard s.board := by
    simp only [State.advance]
  rw [hsame]
  unfold backBoard
  have h := advB_board (List.range W) s.board hb (fun x hx => List.mem_range.1 hx)
    (List.nodup_range W)
  exact ⟨h.1, fun x hx => (h.2 x).1 (List.mem_range.2 hx)⟩

lemma advance_left (s : State) (hb : IsBoard s.board) :
    IsBoard (s.advance Action.Left).board ∧
    ∀ y, y < H →
      rowList (s.advance Action.Left).board y = compactedLow (rowList s.board y) := by
  have hsame : (s.advance Action.Left).board = leftBoard s.board := by
    simp only [State.advance]
  rw [hsame]
  unfold leftBoard
  have h := advL_board (List.range H) s.board hb (fun y hy => List.mem_range.1 hy)
    (List.nodup_range H)
  exact ⟨h.1, fun y hy => (h.2 y).1 (List.mem_range.2 hy)⟩

lemma advance_right (s : State) (hb : IsBoard s.board) :
    IsBoard (s.advance Action.Right).board ∧
    ∀ y, y < H →
      rowList (s.advance Action.Right).board y = compactedHigh (rowList s.board y) := by
  have hsame : (s.advance Action.Right).board = rightBoard s.board := by
    simp only [State.advance]
  rw [hsame]
  unfold rightBoard
  have h := advR_board (List.range H) s.board hb (fun y hy => List.mem_range.1 hy)
    (List.nodup_range H)
  exact ⟨h.1, fun y hy => (h.2 y).1 (List.mem_range.2 hy)⟩

/-! ## Properties of the compacted-line shape -/

lemma filter_nonZero_compactedLow (l : List Nat) :
    (compactedLow l).filter nonZero = l.filter nonZero := by
  unfold compactedLow
  rw [List.filter_append, List.filter_replicate]
  rw [if_neg (by simp [nonZero])]
  rw [List.append_nil, List.filter_eq_self.2 fun a ha => List.of_mem_filter ha]

lemma filter_nonZero_compactedHigh (l : List Nat) :
    (compactedHigh l).filter nonZero = l.filter nonZero := by
  unfold compactedHigh
  rw [List.filter_append, List.filter_replicate]
  rw [if_neg (by simp [nonZero])]
  rw [List.nil_append, List.filter_eq_self.2 fun a ha => List.of_mem_filter ha]

lemma compactedLow_length (l : List Nat) : (compactedLow l).length = l.length := by
  unfold compactedLow
  rw [List.length_append, List.length_replicate]
  have := List.length_filter_le nonZero l
  omega

lemma compactedHigh_length (l : List Nat) : (compactedHigh l).length = l.length := by
  unfold compactedHigh
  rw [List.length_append, List.length_replicate]
  have := List.length_filter_le nonZero l
  omega

lemma compactedLow_idem (l : List Nat) :
    compactedLow (compactedLow l) = compactedLow l := by
  show (compactedLow l).filter nonZero ++
      List.replicate ((compactedLow l).length - ((compactedLow l).filter nonZero).length) 0
    = compactedLow l
  rw [filter_nonZero_compactedLow, compactedLow_length]
  rfl

lemma compactedHigh_idem (l : List Nat) :
    compactedHigh (compactedHigh l) = compactedHigh l := by
  show List.replicate ((compactedHigh l).length - ((compactedHigh l).filter nonZero).length) 0
      ++ (compactedHigh l).filter nonZero
    = compactedHigh l
  rw [filter_nonZero_compactedHigh, compactedHigh_length]
  rfl

lemma compacted_fix_zero (l : List Nat) (h : ∀ j, j < l.length → l.getD j 0 = 0) :
    compactedLow l = l ∧ compactedHigh l = l := by
  have hl : l.filter nonZero = [] := by
    rw [List.filter_eq_nil_iff]
    intro a ha
    obtain ⟨n, hn, he⟩ := List.mem_iff_getElem.1 ha
    have := h n hn
    rw [List.getD_eq_getElem _ _ hn, he] at this
    simp [nonZero, this]
  have hrep : l = List.replicate l.length 0 := by
    apply List.ext_getElem (by simp)
    intro n h1 h2
    rw [List.getElem_replicate]
    have := h n h1
    rwa [List.getD_eq_getElem _ _ h1] at this
  constructor
  · unfold compactedLow
    rw [hl, List.nil_append, List.length_nil, Nat.sub_zero]
    exact hrep.symm
  · unfold compactedHigh
    rw [hl, List.append_nil, List.length_nil, Nat.sub_zero]
    exact hrep.symm

lemma compacted_fix_nonzero (l : List Nat) (h : ∀ j, j < l.length → l.getD j 0 ≠ 0) :
    compactedLow l = l ∧ compactedHigh l = l := by
  have hl : l.filter nonZero = l := by
    rw [List.filter_eq_self]
    intro a ha
    obtain ⟨n, hn, he⟩ := List.mem_iff_getElem.1 ha
    have := h n hn
    rw [List.getD_eq_getElem _ _ hn, he] at this
    simp [nonZero, this]
  constructor
  · unfold compactedLow
    rw [hl, Nat.sub_self, List.replicate_zero, List.append_nil]
  · unfold compactedHigh
    rw [hl, Nat.sub_self, List.replicate_zero, List.nil_append]

/-! ## Board extensionality through its lines -/

lemma board_ext_cols (b1 b2 : Board) (h1 : IsBoard b1) (h2 : IsBoard b2)
    (h : ∀ x, x < W → colList b1 x = colList b2 x) : b1 = b2 := by
  apply List.ext_getElem (by rw [h1.1, h2.1])
  intro y hy1 hy2
  have hyH : y < H := by rwa [h1.1] at hy1
  apply List.ext_getElem (by rw [h1.2 _ (List.getElem_mem hy1), h2.2 _ (List.getElem_mem hy2)])
  intro x hx1 hx2
  have hxW : x < W := by rwa [h1.2 _ (List.getElem_mem hy1)] at hx1
  have e1 : b1[y][x] = bget b1 y x := by
    unfold bget
    rw [List.getD_eq_getElem b1 [] hy1, List.getD_eq_getElem _ _ hx1]
  have e2 : b2[y][x] = bget b2 y x := by
    unfold bget
    rw [List.getD_eq_getElem b2 [] hy2, List.getD_eq_getElem _ _ hx2]
  rw [e1, e2, ← colList_getD b1 x y hyH, ← colList_getD b2 x y hyH, h x hxW]

lemma board_ext_rows (b1 b2 : Board) (h1 : IsBoard b1) (h2 : IsBoard b2)
    (h : ∀ y, y < H → rowList b1 y = rowList b2 y) : b1 = b2 := by
  apply List.ext_getElem (by rw [h1.1, h2.1])
  intro y hy1 hy2
  have hyH : y < H := by rwa [h1.1] at hy1
  apply List.ext_getElem (by rw [h1.2 _ (List.getElem_mem hy1), h2.2 _ (List.getElem_mem hy2)])
  intro x hx1 hx2
  have hxW : x < W := by rwa [h1.2 _ (List.getElem_mem hy1)] at hx1
  have e1 : b1[y][x] = bget b1 y x := by
    unfold bget
    rw [List.getD_eq_getElem b1 [] hy1, List.getD_eq_getElem _ _ hx1]
  have e2 : b2[y][x] = bget b2 y x := by
    unfold bget
    rw [List.getD_eq_getElem b2 [] hy2, List.getD_eq_getElem _ _ hx2]
  rw [e1, e2, ← rowList_getD b1 y x hxW, ← rowList_getD b2 y x hxW, h y hyH]

lemma advance_turn (s : State) (a : Action) : (s.advance a).turn = s.turn + 1 := by
  cases a <;> simp [State.advance]

/-! ## The compaction claims -/

/-- C1: for every well-shaped board and every action, after State::advance
every affected line (column for Forward/Back, row for Left/Right) equals
its stable compaction against the target edge: the non-empty values in the
order in which a scan from the near edge to the far edge met them, packed
contiguously against the target edge, with the zeros on the far side; in
particular the values are unaltered. -/
theorem claim_C1 (s : State) (a : Action) (i : Fin 10) (hb : IsBoard s.board) :
    lineOf (s.advance a).board a i.val = compactedLine a (lineOf s.board a i.val) := by
  cases a with
  | Forward =>
    simp only [lineOf, compactedLine]
    exact (advance_forward s hb).2 i.val i.isLt
  | Back =>
    simp only [lineOf, compactedLine]
    exact (advance_back s hb).2 i.val i.isLt
  | Left =>
    simp only [lineOf, compactedLine]
    exact (advance_left s hb).2 i.val i.isLt
  | Right =>
    simp only [lineOf, compactedLine]
    exact (advance_right s hb).2 i.val i.isLt

/-- C1 witness: the compaction equation at a concrete board, action Left,
row 0. -/
theorem claim_C1_witness :
    lineOf ((State.mk twoGroupsBoard 0).advance Action.Left).board Action.Left 0
      = compactedLine Action.Left (lineOf (State.mk twoGroupsBoard 0).board Action.Left 0) :=
  claim_C1 (State.mk twoGroupsBoard 0) Action.Left 0 (by decide)

/-- C8: a fully empty line is left unchanged by State::advance, and a
fully occupied line (all 10 cells non-empty) is also left unchanged, the
operation completing normally in both cases (the model is total; the
`dest - 1` wrap of the Back/Right loops on a fully occupied line is dead,
see `backStep`). -/
theorem claim_C8 (s : State) (a : Action) (i : Fin 10) (hb : IsBoard s.board) :
    ((∀ j : Fin 10, (lineOf s.board a i.val).getD j.val 0 = 0) →
      lineOf (s.advance a).board a i.val = lineOf s.board a i.val) ∧
    ((∀ j : Fin 10, (lineOf s.board a i.val).getD j.val 0 ≠ 0) →
      lineOf (s.advance a).board a i.val = lineOf s.board a i.val) := by
  cases a with
  | Forward =>
    simp only [lineOf]
    constructor
    · intro hz
      rw [(advance_forward s hb).2 i.val i.isLt]
      exact (compacted_fix_zero _ fun j hj => hz ⟨j, by rwa [colList_length] at hj⟩).1
    · intro hz
      rw [(advance_forward s hb).2 i.val i.isLt]
      exact (compacted_fix_nonzero _ fun j hj => hz ⟨j, by rwa [colList_length] at hj⟩).1
  | Back =>
    simp only [lineOf]
    constructor
    · intro hz
      rw [(advance_back s hb).2 i.val i.isLt]
      exact (compacted_fix_zero _ fun j hj => hz ⟨j, by rwa [colList_length] at hj⟩).2
    · intro hz
      rw [(advance_back s hb).2 i.val i.isLt]
      exact (compacted_fix_nonzero _ fun j hj => hz ⟨j, by rwa [colList_length] at hj⟩).2
  | Left =>
    simp only [lineOf]
    constructor
    · intro hz
      rw [(advance_left s hb).2 i.val i.isLt]
      exact (compacted_fix_zero _ fun j hj => hz ⟨j, by rwa [rowList_length] at hj⟩).1
    · intro hz
      rw [(advance_left s hb).2 i.val i.isLt]
      exact (compacted_fix_nonzero _ fun j hj => hz ⟨j, by rwa [rowList_length] at hj⟩).1
  | Right =>
    simp only [lineOf]
    constructor
    · intro hz
      rw [(advance_right s hb).2 i.val i.isLt]
      exact (compacted_fix_zero _ fun j hj => hz ⟨j, by rwa [rowList_length] at hj⟩).2
    · intro hz
      rw [(advance_right s hb).2 i.val i.isLt]
      exact (compacted_fix_nonzero _ fun j hj => hz ⟨j, by rwa [rowList_length] at hj⟩).2

/-- C8 witness: the fully empty column 0 of the empty board is unchanged
under Forward, and the fully occupied column 0 of the full board is
unchanged under Back. -/
theorem claim_C8_witness :
    lineOf ((State.mk emptyBoard 0).advance Action.Forward).board Action.Forward 0
      = lineOf (State.mk emptyBoard 0).board Action.Forward 0 ∧
    lineOf ((State.mk fullBoard 0).advance Action.Back).board Action.Back 0
      = lineOf (State.mk fullBoard 0).board Action.Back 0 :=
  ⟨(claim_C8 (State.mk emptyBoard 0) Action.Forward 0 (by decide)).1 (by decide),
   (claim_C8 (State.mk fullBoard 0) Action.Back 0 (by decide)).2 (by decide)⟩

/-- C9: applying the same action twice in a row yields the same board grid
contents as applying it once; the turn counter is excluded (it advances by
2 instead of 1). -/
theorem claim_C9 (s : State) (a : Action) (hb : IsBoard s.board) :
    ((s.advance a).advance a).board = (s.advance a).board := by
  cases a with
  | Forward =>
    obtain ⟨hb1, hc1⟩ := advance_forward s hb
    obtain ⟨hb2, hc2⟩ := advance_forward (s.advance Action.Forward) hb1
    apply board_ext_cols _ _ hb2 hb1
    intro x hx
    rw [hc2 x hx, hc1 x hx, compactedLow_idem]
  | Back =>
    obtain ⟨hb1, hc1⟩ := advance_back s hb
    obtain ⟨hb2, hc2⟩ := advance_back (s.advance Action.Back) hb1
    apply board_ext_cols _ _ hb2 hb1
    intro x hx
    rw [hc2 x hx, hc1 x hx, compactedHigh_idem]
  | Left =>
    obtain ⟨hb1, hc1⟩ := advance_left s hb
    obtain ⟨hb2, hc2⟩ := advance_left (s.advance Action.Left) hb1
    apply board_ext_rows _ _ hb2 hb1
    intro y hy
    rw [hc2 y hy, hc1 y hy, compactedLow_idem]
  | Right =>
    obtain ⟨hb1, hc1⟩ := advance_right s hb
    obtain ⟨hb2, hc2⟩ := advance_right (s.advance Action.Right) hb1
    apply board_ext_rows _ _ hb2 hb1
    intro y hy
    rw [hc2 y hy, hc1 y hy, compactedHigh_idem]

/-- C9 witness: repeating Back on a concrete board changes nothing the
second time. -/
theorem claim_C9_witness :
    (((State.mk twoGroupsBoard 0).advance Action.Back).advance Action.Back).board
      = ((State.mk twoGroupsBoard 0).advance Action.Back).board :=
  claim_C9 (State.mk twoGroupsBoard 0) Action.Back (by decide)

/-! ## Conservation of the tile multiset -/

lemma finRange_map_val (n : Nat) : (List.finRange n).map Fin.val = List.range n := by
  apply List.ext_getElem (by simp)
  intro i h1 h2
  rw [List.getElem_map, List.getElem_finRange, List.getElem_range]
  rfl

lemma map_bAt_cellsRM (b : Board) :
    cellsRM.map (bAt b) = (List.finRange H).flatMap fun y => rowList b y.val := by
  unfold cellsRM
  rw [List.map_flatMap]
  apply List.flatMap_congr
  intro y _
  rw [List.map_map]
  unfold rowList
  rw [← finRange_map_val W, List.map_map]
  rfl

lemma map_bAt_cellsCM (b : Board) :
    cellsCM.map (bAt b) = (List.finRange W).flatMap fun x => colList b x.val := by
  unfold cellsCM
  rw [List.map_flatMap]
  apply List.flatMap_congr
  intro x _
  rw [List.map_map]
  unfold colList
  rw [← finRange_map_val H, List.map_map]
  rfl

lemma perm_cellsRM_cellsCM : cellsRM.Perm cellsCM := by decide

/-- C2: for every well-shaped board and every action, State::advance leaves
the multiset of non-empty tile values unchanged (no tile is created,
removed, or changed in value; only positions change) and increments the
turn counter by exactly 1. -/
theorem claim_C2 (s : State) (a : Action) (hb : IsBoard s.board) :
    tileMultiset (s.advance a).board = tileMultiset s.board ∧
    (s.advance a).turn = s.turn + 1 := by
  refine ⟨?_, advance_turn s a⟩
  cases a with
  | Forward =>
    have h := advance_forward s hb
    unfold tileMultiset
    have e1 := Multiset.coe_eq_coe.2
      ((perm_cellsRM_cellsCM.map (bAt (s.advance Action.Forward).board)).filter nonZero)
    have e2 := Multiset.coe_eq_coe.2 ((perm_cellsRM_cellsCM.map (bAt s.board)).filter nonZero)
    rw [e1, e2, map_bAt_cellsCM, map_bAt_cellsCM, List.filter_flatMap, List.filter_flatMap]
    rw [List.flatMap_congr fun x _ => by
      rw [h.2 x.val x.isLt, filter_nonZero_compactedLow]]
  | Back =>
    have h := advance_back s hb
    unfold tileMultiset
    have e1 := Multiset.coe_eq_coe.2
      ((perm_cellsRM_cellsCM.map (bAt (s.advance Action.Back).board)).filter nonZero)
    have e2 := Multiset.coe_eq_coe.2 ((perm_cellsRM_cellsCM.map (bAt s.board)).filter nonZero)
    rw [e1, e2, map_bAt_cellsCM, map_bAt_cellsCM, List.filter_flatMap, List.filter_flatMap]
    rw [List.flatMap_congr fun x _ => by
      rw [h.2 x.val x.isLt, filter_nonZero_compactedHigh]]
  | Left =>
    have h := advance_left s hb
    unfold tileMultiset
    rw [map_bAt_cellsRM, map_bAt_cellsRM, List.filter_flatMap, List.filter_flatMap]
    rw [List.flatMap_congr fun y _ => by
      rw [h.2 y.val y.isLt, filter_nonZero_compactedLow]]
  | Right =>
    have h := advance_right s hb
    unfold tileMultiset
    rw [map_bAt_cellsRM, map_bAt_cellsRM, List.filter_flatMap, List.filter_flatMap]
    rw [List.flatMap_congr fun y _ => by
      rw [h.2 y.val y.isLt, filter_nonZero_compactedHigh]]

/-- C2 witness: conservation and turn increment at a concrete board and
action. -/
theorem claim_C2_witness :
    tileMultiset ((State.mk twoGroupsBoard 3).advance Action.Right).board
      = tileMultiset (State.mk twoGroupsBoard 3).board ∧
    ((State.mk twoGroupsBoard 3).advance Action.Right).turn = 4 :=
  claim_C2 (State.mk twoGroupsBoard 3) Action.Right (by decide)

/-! ## State::update characterization -/

lemma foldl_flatMap {α β γ : Type} (g : β → List γ) (f : α → γ → α) :
    ∀ (l : List β) (init : α),
      (l.flatMap g).foldl f init = l.foldl (fun acc x => (g x).foldl f acc) init
  | [], _ => rfl
  | x :: l, init => by
    rw [List.flatMap_cons, List.foldl_append, List.foldl_cons]
    exact foldl_flatMap g f l _

lemma update_board_eq (s : State) (candies : Nat → Nat) (pt : Int) :
    (s.update candies pt).board
      = (cellsRM.foldl (updStep (candies s.turn) pt) ((0 : Int), s.board)).2 := by
  unfold State.update cellsRM
  rw [foldl_flatMap]
  simp only [List.foldl_map]

lemma updScan_done (v : Nat) (pt : Int) :
    ∀ (l : List Cell) (c0 : Int) (b : Board), pt ≤ c0 →
      (l.foldl (updStep v pt) (c0, b)).2 = b
  | [], _, _, _ => rfl
  | p :: l, c0, b, h => by
    rw [List.foldl_cons]
    by_cases h0 : bAt b p = 0
    · have e : updStep v pt (c0, b) p = (c0 + 1, b) := by
        unfold updStep
        rw [if_neg (not_not_intro h0), if_neg (by omega : ¬(c0 + 1 = pt))]
      rw [e]
      exact updScan_done v pt l (c0 + 1) b (by omega)
    · have e : updStep v pt (c0, b) p = (c0, b) := by
        unfold updStep
        rw [if_pos h0]
      rw [e]
      exact updScan_done v pt l c0 b h

lemma updScan_go (v : Nat) (pt : Int) :
    ∀ (l : List Cell) (c0 : Int) (b : Board), c0 < pt →
      (pt ≤ c0 + ((l.filter fun p => decide (bAt b p = 0)).length : Int) →
        (l.foldl (updStep v pt) (c0, b)).2
          = bset b
              ((l.filter fun p => decide (bAt b p = 0)).getD (pt - c0 - 1).toNat
                ((0, 0) : Cell)).1.val
              ((l.filter fun p => decide (bAt b p = 0)).getD (pt - c0 - 1).toNat
                ((0, 0) : Cell)).2.val v) ∧
      (c0 + ((l.filter fun p => decide (bAt b p = 0)).length : Int) < pt →
        (l.foldl (updStep v pt) (c0, b)).2 = b)
  | [], c0, b, hlt => by
    constructor
    · intro hle
      simp only [List.filter_nil, List.length_nil] at hle
      omega
    · intro _
      rfl
  | p :: l, c0, b, hlt => by
    rw [List.foldl_cons]
    by_cases h0 : bAt b p = 0
    · have hf : (p :: l).filter (fun p => decide (bAt b p = 0))
          = p :: l.filter (fun p => decide (bAt b p = 0)) := by
        simp [List.filter_cons, h0]
      by_cases hpt : c0 + 1 = pt
      · have e : updStep v pt (c0, b) p = (c0 + 1, bset b p.1.val p.2.val v) := by
          unfold updStep
          rw [if_neg (not_not_intro h0), if_pos hpt]
        rw [e, hf]
        constructor
        · intro _
          rw [updScan_done v pt l (c0 + 1) _ (by omega)]
          have hz : (pt - c0 - 1).toNat = 0 := by omega
          rw [hz, List.getD_cons_zero]
        · intro hgt
          simp only [List.length_cons] at hgt
          omega
      · have e : updStep v pt (c0, b) p = (c0 + 1, b) := by
          unfold updStep
          rw [if_neg (not_not_intro h0), if_neg hpt]
        rw [e, hf]
        have ih := updScan_go v pt l (c0 + 1) b (by omega)
        constructor
        · intro hle
          simp only [List.length_cons] at hle
          have hidx : (pt - c0 - 1).toNat = (pt - (c0 + 1) - 1).toNat + 1 := by omega
          rw [hidx, List.getD_cons_succ]
          exact ih.1 (by push_cast at hle ⊢; omega)
        · intro hgt
          simp only [List.length_cons] at hgt
          exact ih.2 (by push_cast at hgt ⊢; omega)
    · have hf : (p :: l).filter (fun p => decide (bAt b p = 0))
          = l.filter (fun p => decide (bAt b p = 0)) := by
        simp [List.filter_cons, h0]
      have e : updStep v pt (c0, b) p = (c0, b) := by
        unfold updStep
        rw [if_pos h0]
      rw [e, hf]
      exact updScan_go v pt l c0 b hlt

lemma cellsRM_nodup : cellsRM.Nodup := by decide

lemma mem_cellsRM (q : Cell) : q ∈ cellsRM := by
  unfold cellsRM
  exact List.mem_flatMap.2
    ⟨q.1, List.mem_finRange _, List.mem_map.2 ⟨q.2, List.mem_finRange _, rfl⟩⟩

lemma nonEmptyCount_bset (b : Board) (q : Cell) (v : Nat) (hb : IsBoard b)
    (h0 : bAt b q = 0) (hv : v ≠ 0) :
    nonEmptyCount (bset b q.1.val q.2.val v) = nonEmptyCount b + 1 := by
  obtain ⟨l1, l2, hsplit⟩ := List.append_of_mem (mem_cellsRM q)
  have hnd : (l1 ++ q :: l2).Nodup := hsplit ▸ cellsRM_nodup
  obtain ⟨hnd1, hnd2, hdisj⟩ := List.nodup_append.1 hnd
  have hq1 : q ∉ l1 := fun h => hdisj h (List.mem_cons_self q l2)
  have hq2 : q ∉ l2 := (List.nodup_cons.1 hnd2).1
  have key : ∀ p : Cell, p ≠ q → bAt (bset b q.1.val q.2.val v) p = bAt b p := by
    intro p hpq
    unfold bAt
    rw [bget_bset _ _ _ _ _ _ hb q.1.isLt]
    rw [if_neg fun hc => hpq (Prod.ext (Fin.ext hc.1.symm) (Fin.ext hc.2.1.symm))]
  have keyq : bAt (bset b q.1.val q.2.val v) q = v := by
    unfold bAt
    rw [bget_bset _ _ _ _ _ _ hb q.1.isLt, if_pos ⟨rfl, rfl, q.2.isLt⟩]
  unfold nonEmptyCount
  rw [← List.countP_eq_length_filter, ← List.countP_eq_length_filter,
    List.countP_map, List.countP_map, hsplit, List.countP_append, List.countP_append,
    List.countP_cons, List.countP_cons]
  have e1 : l1.countP (nonZero ∘ bAt (bset b q.1.val q.2.val v))
      = l1.countP (nonZero ∘ bAt b) :=
    List.countP_congr fun p hp => by
      simp only [Function.comp_apply, key p (fun he => hq1 (he ▸ hp))]
  have e2 : l2.countP (nonZero ∘ bAt (bset b q.1.val q.2.val v))
      = l2.countP (nonZero ∘ bAt b) :=
    List.countP_congr fun p hp => by
      simp only [Function.comp_apply, key p (fun he => hq2 (he ▸ hp))]
  have eq1 : (nonZero ∘ bAt (bset b q.1.val q.2.val v)) q = true := by
    simp [Function.comp_apply, keyq, nonZero, hv]
  have eq2 : (nonZero ∘ bAt b) q = false := by
    simp [Function.comp_apply, h0, nonZero]
  rw [e1, e2, eq1, eq2, if_pos rfl, if_neg Bool.false_ne_true]
  omega

/-- C3: State::update(pt) does not change the turn counter; when pt exceeds
the number of empty cells the whole board is unchanged (silent no-op); when
1 ≤ pt ≤ number of empty cells, the pt-th empty cell (1-indexed) in
row-major scan order receives the value scheduled for the current turn,
every other cell keeps its value, and the non-empty-cell count increases by
exactly 1 (the scheduled tile values are the nonzero identifiers 1..3, so
the inserted value is nonzero). -/
theorem claim_C3 (s : State) (candies : Nat → Nat) (pt : Int) (hb : IsBoard s.board)
    (hv : candies s.turn ≠ 0) :
    (s.update candies pt).turn = s.turn ∧
    (((emptyCells s.board).length : Int) < pt → (s.update candies pt).board = s.board) ∧
    (1 ≤ pt → pt ≤ ((emptyCells s.board).length : Int) →
      (∀ q : Cell,
        bAt (s.update candies pt).board q
          = if q = (emptyCells s.board).getD (pt.toNat - 1) ((0, 0) : Cell)
            then candies s.turn else bAt s.board q) ∧
      nonEmptyCount (s.update candies pt).board = nonEmptyCount s.board + 1) := by
  have hE : emptyCells s.board = cellsRM.filter fun p => decide (bAt s.board p = 0) := rfl
  refine ⟨?_, ?_, ?_⟩
  · simp only [State.update]
  · intro hgt
    rw [update_board_eq]
    refine (updScan_go (candies s.turn) pt cellsRM 0 s.board (by omega)).2 ?_
    rw [← hE]
    omega
  · intro h1 h2
    have hle : pt ≤ 0 + ((cellsRM.filter fun p => decide (bAt s.board p = 0)).length : Int) := by
      rw [← hE]
      omega
    have hben := (updScan_go (candies s.turn) pt cellsRM 0 s.board (by omega)).1 hle
    have hidx : (pt - 0 - 1).toNat = pt.toNat - 1 := by omega
    rw [hidx, ← hE] at hben
    set q0 : Cell := (emptyCells s.board).getD (pt.toNat - 1) ((0, 0) : Cell) with hq0
    have hbq : (s.update candies pt).board = bset s.board q0.1.val q0.2.val (candies s.turn) := by
      rw [update_board_eq, hben]
    have hq0mem : q0 ∈ emptyCells s.board := by
      have hlen : pt.toNat - 1 < (emptyCells s.board).length := by omega
      rw [hq0, List.getD_eq_getElem _ _ hlen]
      exact List.getElem_mem hlen
    have hq0z : bAt s.board q0 = 0 := by
      have := List.of_mem_filter (hE ▸ hq0mem)
      exact of_decide_eq_true this
    constructor
    · intro q
      rw [hbq]
      by_cases hq : q = q0
      · rw [if_pos hq, hq]
        unfold bAt
        rw [bget_bset _ _ _ _ _ _ hb q0.1.isLt, if_pos ⟨rfl, rfl, q0.2.isLt⟩]
      · rw [if_neg hq]
        unfold bAt
        rw [bget_bset _ _ _ _ _ _ hb q0.1.isLt]
        rw [if_neg fun hc => hq (Prod.ext (Fin.ext hc.1.symm) (Fin.ext hc.2.1.symm))]
    · rw [hbq]
      exact nonEmptyCount_bset s.board q0 (candies s.turn) hb hq0z hv

/-- C3 witness: inserting at pt = 5 on a concrete board with 92 empty
cells: the turn is kept, the 5th empty cell in row-major order receives the
scheduled value, other cells are unchanged, and the non-empty count grows
by 1. -/
theorem claim_C3_witness :
    ((State.mk twoGroupsBoard 0).update candiesEx 5).turn = (State.mk twoGroupsBoard 0).turn ∧
    (((emptyCells (State.mk twoGroupsBoard 0).board).length : Int) < 5 →
      ((State.mk twoGroupsBoard 0).update candiesEx 5).board = (State.mk twoGroupsBoard 0).board) ∧
    (1 ≤ (5 : Int) → (5 : Int) ≤ ((emptyCells (State.mk twoGroupsBoard 0).board).length : Int) →
      (∀ q : Cell,
        bAt ((State.mk twoGroupsBoard 0).update candiesEx 5).board q
          = if q = (emptyCells (State.mk twoGroupsBoard 0).board).getD ((5 : Int).toNat - 1)
                ((0, 0) : Cell)
            then candiesEx (State.mk twoGroupsBoard 0).turn
            else bAt (State.mk twoGroupsBoard 0).board q) ∧
      nonEmptyCount ((State.mk twoGroupsBoard 0).update candiesEx 5).board
        = nonEmptyCount (State.mk twoGroupsBoard 0).board + 1) :=
  claim_C3 (State.mk twoGroupsBoard 0) candiesEx 5 (by decide) (by decide)

/-! ## The checked grid of get_score -/

lemma grid_row_length (ch : CheckGrid) (y : Nat) (hg : IsGrid ch) (hy : y < H) :
    (ch.getD y []).length = W := by
  rw [List.getD_eq_getElem ch [] (by rw [hg.1]; exact hy)]
  exact hg.2 _ (List.getElem_mem _)

lemma isGrid_ckSet (ch : CheckGrid) (c : Cell) (hg : IsGrid ch) : IsGrid (ckSet ch c) := by
  constructor
  · simp [ckSet, hg.1]
  · intro r hr
    rcases List.mem_or_eq_of_mem_set hr with hr | hr
    · exact hg.2 r hr
    · subst hr
      rw [List.length_set]
      exact grid_row_length ch c.1.val hg c.1.isLt

lemma ckAt_ckSet (ch : CheckGrid) (c c' : Cell) (hg : IsGrid ch) :
    ckAt (ckSet ch c) c' = if c' = c then true else ckAt ch c' := by
  unfold ckAt ckSet
  by_cases hyy : c.1.val = c'.1.val
  · rw [hyy, getD_set_self _ _ _ _ (by rw [hg.1]; exact c'.1.isLt)]
    by_cases hxx : c.2.val = c'.2.val
    · rw [hxx, getD_set_self _ _ _ _ (by rw [grid_row_length ch c'.1.val hg c'.1.isLt]; exact c'.2.isLt)]
      rw [if_pos (Prod.ext (Fin.ext hyy.symm) (Fin.ext hxx.symm))]
    · rw [getD_set_ne _ _ _ hxx]
      rw [if_neg fun he => hxx (by rw [he])]
  · rw [getD_set_ne _ _ _ hyy]
    rw [if_neg fun he => hyy (by rw [he])]

/-- The set of cells currently marked true in the checked grid. -/
def marked (ch : CheckGrid) : Finset Cell := Finset.univ.filter fun c => ckAt ch c = true

lemma mem_marked (ch : CheckGrid) (c : Cell) : c ∈ marked ch ↔ ckAt ch c = true := by
  simp [marked]

lemma not_mem_marked (ch : CheckGrid) (c : Cell) : c ∉ marked ch ↔ ckAt ch c = false := by
  simp [marked]

lemma marked_ckSet (ch : CheckGrid) (c : Cell) (hg : IsGrid ch) :
    marked (ckSet ch c) = insert c (marked ch) := by
  ext c'
  rw [mem_marked, ckAt_ckSet ch c c' hg, Finset.mem_insert, mem_marked]
  by_cases h : c' = c
  · simp [h]
  · simp [h]

/-! ## Adjacency and connectivity -/

lemma mem_nbrs : ∀ p q : Cell, q ∈ nbrs p ↔ adjacent p q := by decide

lemma adjacent_symm (p q : Cell) (h : adjacent p q) : adjacent q p := by
  unfold adjacent at h ⊢
  rcases h with ⟨h1, h2⟩ | ⟨h1, h2⟩
  · exact Or.inl ⟨h1.symm, h2.symm⟩
  · exact Or.inr ⟨h1.symm, h2.symm⟩

lemma connected_symm (b : Board) (u v : Cell) (h : connected b u v) : connected b v u := by
  unfold connected at h ⊢
  induction h with
  | refl => exact Relation.ReflTransGen.refl
  | tail h1 h2 ih =>
      exact Relation.ReflTransGen.trans
        (Relation.ReflTransGen.single ⟨adjacent_symm _ _ h2.1, h2.2.symm⟩) ih

lemma reach_val (b : Board) (candy : Nat) (p q : Cell) (h : reachR b candy p q)
    (hp : bAt b p = candy) : bAt b q = candy := by
  unfold reachR at h
  induction h with
  | refl => exact hp
  | tail _ h2 _ => exact h2.2

lemma reach_iff_conn (b : Board) (p q : Cell) :
    reachR b (bAt b p) p q ↔ connected b p q := by
  constructor
  · intro h
    unfold reachR at h
    induction h with
    | refl => exact Relation.ReflTransGen.refl
    | tail h1 h2 ih =>
        exact Relation.ReflTransGen.tail ih
          ⟨(mem_nbrs _ _).1 h2.1, (reach_val b (bAt b p) p _ h1 rfl).trans h2.2.symm⟩
  · intro h
    unfold connected at h
    induction h with
    | refl => exact Relation.ReflTransGen.refl
    | tail h1 h2 ih =>
        exact Relation.ReflTransGen.tail ih
          ⟨(mem_nbrs _ _).2 h2.1, h2.2 ▸ reach_val b (bAt b p) p _ ih rfl⟩

lemma mem_componentOf (b : Board) (p q : Cell) : q ∈ componentOf b p ↔ connected b p q := by
  unfold componentOf
  rw [@Finset.mem_filter _ _ (Classical.decPred _)]
  exact and_iff_right (Finset.mem_univ q)

lemma componentOf_eq_of_connected (b : Board) (u v : Cell) (h : connected b u v) :
    componentOf b u = componentOf b v := by
  ext c
  rw [mem_componentOf, mem_componentOf]
  constructor
  · intro hc
    exact Relation.ReflTransGen.trans (connected_symm b u v h) hc
  · intro hc
    exact Relation.ReflTransGen.trans h hc

lemma mem_reachSet (b : Board) (candy : Nat) (p q : Cell) :
    q ∈ reachSet b candy p ↔ reachR b candy p q := by
  unfold reachSet
  rw [@Finset.mem_filter _ _ (Classical.decPred _)]
  exact and_iff_right (Finset.mem_univ q)

lemma reachSet_eq_componentOf (b : Board) (p : Cell) :
    reachSet b (bAt b p) p = componentOf b p := by
  ext c
  rw [mem_reachSet, mem_componentOf]
  exact reach_iff_conn b p c

/-! ## The BFS neighbour-visiting fold -/

lemma visit_fold (b : Board) (candy : Nat) (l : List Cell) :
    ∀ (ch : CheckGrid) (acc : List Cell), IsGrid ch →
      IsGrid (l.foldl (visitStep b candy) (ch, acc)).1 ∧
      ∃ t : List Cell,
        (l.foldl (visitStep b candy) (ch, acc)).2 = acc ++ t ∧
        t.Nodup ∧
        (∀ c ∈ t, c ∈ l ∧ bAt b c = candy ∧ c ∉ marked ch) ∧
        marked (l.foldl (visitStep b candy) (ch, acc)).1 = marked ch ∪ t.toFinset ∧
        (∀ c ∈ l, bAt b c = candy →
          c ∈ marked (l.foldl (visitStep b candy) (ch, acc)).1) := by
  induction l with
  | nil =>
    intro ch acc hg
    exact ⟨hg, [], by simp, List.nodup_nil, by simp, by simp, by simp⟩
  | cons p l ih =>
    intro ch acc hg
    rw [List.foldl_cons]
    by_cases hc : ckAt ch p = false ∧ bAt b p = candy
    · have e : visitStep b candy (ch, acc) p = (ckSet ch p, acc ++ [p]) := by
        unfold visitStep
        rw [if_pos hc]
      rw [e]
      obtain ⟨hg', t', h2, h3, h4, h5, h6⟩ := ih (ckSet ch p) (acc ++ [p]) (isGrid_ckSet ch p hg)
      refine ⟨hg', p :: t', ?_, ?_, ?_, ?_, ?_⟩
      · rw [h2]
        simp
      · rw [List.nodup_cons]
        refine ⟨fun hp => ?_, h3⟩
        exact (h4 p hp).2.2 ((marked_ckSet ch p hg) ▸ Finset.mem_insert_self p (marked ch))
      · intro c hcmem
        rcases List.mem_cons.1 hcmem with rfl | hcmem
        · exact ⟨List.mem_cons_self _ _, hc.2, (not_mem_marked ch c).2 hc.1⟩
        · obtain ⟨hcl, hcv, hcm⟩ := h4 c hcmem
          refine ⟨List.mem_cons_of_mem _ hcl, hcv, fun hmm => hcm ?_⟩
          rw [marked_ckSet ch p hg]
          exact Finset.mem_insert_of_mem hmm
      · rw [h5, marked_ckSet ch p hg]
        ext c'
        simp only [Finset.mem_union, Finset.mem_insert, List.toFinset_cons, List.mem_toFinset]
        tauto
      · intro c hcmem hcv
        rcases List.mem_cons.1 hcmem with rfl | hcmem
        · rw [h5, marked_ckSet ch c hg]
          exact Finset.mem_union_left _ (Finset.mem_insert_self _ _)
        · exact h6 c hcmem hcv
    · have e : visitStep b candy (ch, acc) p = (ch, acc) := by
        unfold visitStep
        rw [if_neg hc]
      rw [e]
      obtain ⟨hg', t', h2, h3, h4, h5, h6⟩ := ih ch acc hg
      refine ⟨hg', t', h2, h3, ?_, h5, ?_⟩
      · intro c hcmem
        obtain ⟨hcl, hcv, hcm⟩ := h4 c hcmem
        exact ⟨List.mem_cons_of_mem _ hcl, hcv, hcm⟩
      · intro c hcmem hcv
        rcases List.mem_cons.1 hcmem with rfl | hcmem
        · have hck : ckAt ch c = true := by
            rcases Bool.dichotomy (ckAt ch c) with hx | hx
            · exact absurd ⟨hx, hcv⟩ hc
            · exact hx
          rw [h5]
          exact Finset.mem_union_left _ ((mem_marked ch c).2 hck)
        · exact h6 c hcmem hcv

/-! ## BFS correctness -/

lemma bfsRun_nil (b : Board) (candy : Nat) (fuel : Nat) (ch : CheckGrid) (cnt : Nat) :
    bfsRun b candy fuel [] ch cnt = (cnt, ch) := by
  cases fuel <;> rfl

lemma reach_subset_closed (b : Board) (candy : Nat) (p : Cell) (A : Finset Cell)
    (hp : p ∈ A) (hclosed : ∀ u ∈ A, ∀ v, stepR b candy u v → v ∈ A) :
    ∀ c, reachR b candy p c → c ∈ A := by
  intro c h
  unfold reachR at h
  induction h with
  | refl => exact hp
  | tail _ h2 ih => exact hclosed _ ih _ h2

lemma bfs_go (b : Board) (candy : Nat) (p : Cell) (M0 : Finset Cell)
    (hdisj : ∀ c, reachR b candy p c → c ∉ M0) :
    ∀ (fuel : Nat) (q : List Cell) (ch : CheckGrid) (cnt : Nat) (A : Finset Cell),
      IsGrid ch →
      (∀ c ∈ A, reachR b candy p c) →
      q.Nodup →
      (∀ c ∈ q, c ∈ A) →
      (∀ u ∈ A, u ∉ q → ∀ v, stepR b candy u v → v ∈ A) →
      cnt + q.length = A.card →
      marked ch = M0 ∪ A →
      p ∈ A →
      2 * ((reachSet b candy p).card - A.card) + q.length ≤ fuel →
      (bfsRun b candy fuel q ch cnt).1
          = cnt + ((reachSet b candy p).card - A.card) + q.length ∧
      marked (bfsRun b candy fuel q ch cnt).2 = M0 ∪ reachSet b candy p ∧
      IsGrid (bfsRun b candy fuel q ch cnt).2 := by
  have terminal : ∀ (fuel : Nat) (ch : CheckGrid) (cnt : Nat) (A : Finset Cell),
      IsGrid ch →
      (∀ c ∈ A, reachR b candy p c) →
      (∀ u ∈ A, u ∉ ([] : List Cell) → ∀ v, stepR b candy u v → v ∈ A) →
      marked ch = M0 ∪ A →
      p ∈ A →
      (bfsRun b candy fuel [] ch cnt).1
          = cnt + ((reachSet b candy p).card - A.card) + ([] : List Cell).length ∧
      marked (bfsRun b candy fuel [] ch cnt).2 = M0 ∪ reachSet b candy p ∧
      IsGrid (bfsRun b candy fuel [] ch cnt).2 := by
    intro fuel ch cnt A hg hA hclosed hm hp
    have hAR : A = reachSet b candy p := by
      apply Finset.Subset.antisymm
      · intro c hc
        exact (mem_reachSet b candy p c).2 (hA c hc)
      · intro c hc
        exact reach_subset_closed b candy p A hp
          (fun u hu v hv => hclosed u hu (List.not_mem_nil u) v hv) c
          ((mem_reachSet b candy p c).1 hc)
    rw [bfsRun_nil]
    refine ⟨?_, ?_, hg⟩
    · rw [← hAR, Nat.sub_self]
      rfl
    · rw [hm, hAR]
  intro fuel
  induction fuel with
  | zero =>
    intro q ch cnt A hg hA hnd hqA hclosed hcnt hm hp hfuel
    cases q with
    | nil => exact terminal 0 ch cnt A hg hA hclosed hm hp
    | cons u q' =>
      rw [List.length_cons] at hfuel
      omega
  | succ fuel ih =>
    intro q ch cnt A hg hA hnd hqA hclosed hcnt hm hp hfuel
    cases q with
    | nil => exact terminal (fuel + 1) ch cnt A hg hA hclosed hm hp
    | cons u q' =>
      have estep : bfsRun b candy (fuel + 1) (u :: q') ch cnt
          = bfsRun b candy fuel (q' ++ ((nbrs u).foldl (visitStep b candy) (ch, [])).2)
              ((nbrs u).foldl (visitStep b candy) (ch, [])).1 (cnt + 1) := rfl
      obtain ⟨hg', t, ht2, htnd, htprop, htm, htall⟩ := visit_fold b candy (nbrs u) ch [] hg
      rw [List.nil_append] at ht2
      have huA : u ∈ A := hqA u (List.mem_cons_self u q')
      have huReach : reachR b candy p u := hA u huA
      have htReach : ∀ c ∈ t, reachR b candy p c := fun c hc =>
        Relation.ReflTransGen.tail huReach ⟨(htprop c hc).1, (htprop c hc).2.1⟩
      have htNotA : ∀ c ∈ t, c ∉ A := fun c hc hcA =>
        (htprop c hc).2.2 (hm ▸ Finset.mem_union_right M0 hcA)
      have hdisjAt : Disjoint A t.toFinset := Finset.disjoint_left.2
        fun c hcA hct => htNotA c (List.mem_toFinset.1 hct) hcA
      have hcardA' : (A ∪ t.toFinset).card = A.card + t.length := by
        rw [Finset.card_union_of_disjoint hdisjAt, List.toFinset_card_of_nodup htnd]
      have hsubR : A ∪ t.toFinset ⊆ reachSet b candy p := by
        intro c hc
        rcases Finset.mem_union.1 hc with hc | hc
        · exact (mem_reachSet b candy p c).2 (hA c hc)
        · exact (mem_reachSet b candy p c).2 (htReach c (List.mem_toFinset.1 hc))
      have hRA : A.card ≤ (reachSet b candy p).card :=
        Finset.card_le_card fun c hc => (mem_reachSet b candy p c).2 (hA c hc)
      have hRA' : A.card + t.length ≤ (reachSet b candy p).card := by
        rw [← hcardA']
        exact Finset.card_le_card hsubR
      have hA' : ∀ c ∈ A ∪ t.toFinset, reachR b candy p c := by
        intro c hc
        rcases Finset.mem_union.1 hc with hc | hc
        · exact hA c hc
        · exact htReach c (List.mem_toFinset.1 hc)
      have hnd' : (q' ++ t).Nodup := by
        rw [List.nodup_append]
        refine ⟨(List.nodup_cons.1 hnd).2, htnd, ?_⟩
        intro c hcq hct
        exact (htprop c hct).2.2
          (hm ▸ Finset.mem_union_right M0 (hqA c (List.mem_cons_of_mem u hcq)))
      have hqA' : ∀ c ∈ q' ++ t, c ∈ A ∪ t.toFinset := by
        intro c hc
        rcases List.mem_append.1 hc with hc | hc
        · exact Finset.mem_union_left _ (hqA c (List.mem_cons_of_mem u hc))
        · exact Finset.mem_union_right _ (List.mem_toFinset.2 hc)
      have hclosed' : ∀ u' ∈ A ∪ t.toFinset, u' ∉ q' ++ t →
          ∀ v, stepR b candy u' v → v ∈ A ∪ t.toFinset := by
        intro u' hu' hnq v hv
        by_cases huu : u' = u
        · subst huu
          have hvm : v ∈ marked ((nbrs u').foldl (visitStep b candy) (ch, [])).1 :=
            htall v hv.1 hv.2
          rw [htm, hm] at hvm
          have hvReach : reachR b candy p v :=
            Relation.ReflTransGen.tail huReach hv
          rcases Finset.mem_union.1 hvm with hvm | hvm
          · rcases Finset.mem_union.1 hvm with hvm | hvm
            · exact absurd hvm (hdisj v hvReach)
            · exact Finset.mem_union_left _ hvm
          · exact Finset.mem_union_right _ hvm
        · rcases Finset.mem_union.1 hu' with hu'A | hu't
          · have hnqu : u' ∉ u :: q' := by
              intro hmem
              rcases List.mem_cons.1 hmem with h | h
              · exact huu h
              · exact hnq (List.mem_append_left _ h)
            exact Finset.mem_union_left _ (hclosed u' hu'A hnqu v hv)
          · exact absurd (List.mem_append_right _ (List.mem_toFinset.1 hu't)) hnq
      have hcnt' : (cnt + 1) + (q' ++ t).length = (A ∪ t.toFinset).card := by
        rw [List.length_append, hcardA']
        rw [List.length_cons] at hcnt
        omega
      have hm' : marked ((nbrs u).foldl (visitStep b candy) (ch, [])).1
          = M0 ∪ (A ∪ t.toFinset) := by
        rw [htm, hm, Finset.union_assoc]
      have hp' : p ∈ A ∪ t.toFinset := Finset.mem_union_left _ hp
      have hfuel' : 2 * ((reachSet b candy p).card - (A ∪ t.toFinset).card)
          + (q' ++ t).length ≤ fuel := by
        rw [hcardA', List.length_append]
        rw [List.length_cons] at hfuel
        omega
      obtain ⟨e1, e2, e3⟩ := ih (q' ++ t) ((nbrs u).foldl (visitStep b candy) (ch, [])).1
        (cnt + 1) (A ∪ t.toFinset) hg' hA' hnd' hqA' hclosed' hcnt' hm' hp' hfuel'
      rw [estep, ht2]
      refine ⟨?_, e2, e3⟩
      rw [e1, hcardA', List.length_append, List.length_cons]
      omega

lemma get_group_size_spec (b : Board) (p : Cell) (checked : CheckGrid)
    (hg : IsGrid checked) (hp0 : ckAt checked p = false)
    (hdisj : ∀ c, reachR b (bAt b p) p c → c ∉ marked checked) :
    (get_group_size b p checked).1 = (componentOf b p).card ∧
    marked (get_group_size b p checked).2 = marked checked ∪ componentOf b p ∧
    IsGrid (get_group_size b p checked).2 := by
  have hpR : p ∈ reachSet b (bAt b p) p :=
    (mem_reachSet b (bAt b p) p p).2 Relation.ReflTransGen.refl
  have hRle : (reachSet b (bAt b p) p).card ≤ 100 := by
    have h1 := Finset.card_le_univ (reachSet b (bAt b p) p)
    have h2 : Fintype.card Cell = 100 := by
      rw [Fintype.card_prod, Fintype.card_fin]
      rfl
    omega
  have hHW : 2 * (H * W) + 1 = 201 := rfl
  obtain ⟨e1, e2, e3⟩ := bfs_go b (bAt b p) p (marked checked) hdisj (2 * (H * W) + 1) [p]
    (ckSet checked p) 0 {p}
    (isGrid_ckSet checked p hg)
    (fun c hc => by
      rw [Finset.mem_singleton] at hc
      subst hc
      exact Relation.ReflTransGen.refl)
    (List.nodup_singleton p)
    (fun c hc => by
      rw [List.mem_singleton] at hc
      rw [hc]
      exact Finset.mem_singleton_self p)
    (fun u hu hnq v hv => by
      rw [Finset.mem_singleton] at hu
      subst hu
      exact absurd (List.mem_singleton_self u) hnq)
    (by simp)
    (by
      rw [marked_ckSet checked p hg]
      ext c
      simp only [Finset.mem_insert, Finset.mem_union, Finset.mem_singleton]
      tauto)
    (Finset.mem_singleton_self p)
    (by
      rw [Finset.card_singleton, List.length_singleton, hHW]
      omega)
  have hone : 1 ≤ (reachSet b (bAt b p) p).card := Finset.card_pos.2 ⟨p, hpR⟩
  unfold get_group_size
  refine ⟨?_, ?_, e3⟩
  · rw [e1, Finset.card_singleton, List.length_singleton, ← reachSet_eq_componentOf]
    omega
  · rw [e2, reachSet_eq_componentOf]

/-! ## The get_score scan -/

/-- The cells the score scan has marked after processing a prefix l1 of the
row-major cell order: the components of the non-empty cells seen so far. -/
noncomputable def markedSpec (b : Board) (l1 : List Cell) : Finset Cell :=
  @Finset.filter _ (fun c => ∃ d ∈ l1, bAt b d ≠ 0 ∧ connected b d c)
    (Classical.decPred _) Finset.univ

/-- The components counted after processing a prefix l1. -/
noncomputable def compsUpTo (b : Board) (l1 : List Cell) : Finset (Finset Cell) :=
  (l1.toFinset.filter fun d => bAt b d ≠ 0).image (componentOf b)

lemma mem_markedSpec (b : Board) (l1 : List Cell) (c : Cell) :
    c ∈ markedSpec b l1 ↔ ∃ d ∈ l1, bAt b d ≠ 0 ∧ connected b d c := by
  unfold markedSpec
  rw [@Finset.mem_filter _ _ (Classical.decPred _)]
  exact and_iff_right (Finset.mem_univ c)

lemma score_fold (b : Board) (l2 : List Cell) :
    ∀ (l1 : List Cell) (sc : Nat) (ch : CheckGrid),
      IsGrid ch →
      marked ch = markedSpec b l1 →
      sc = ∑ K ∈ compsUpTo b l1, K.card ^ 2 →
      (l2.foldl (scoreStep b) (sc, ch)).1 = ∑ K ∈ compsUpTo b (l1 ++ l2), K.card ^ 2 := by
  induction l2 with
  | nil =>
    intro l1 sc ch hg hm hsc
    rw [List.append_nil]
    exact hsc
  | cons p l2 ih =>
    intro l1 sc ch hg hm hsc
    rw [List.foldl_cons]
    have hassoc : l1 ++ p :: l2 = (l1 ++ [p]) ++ l2 := by simp
    rw [hassoc]
    by_cases hc : bAt b p ≠ 0 ∧ ckAt ch p = false
    · have hdisj : ∀ c, reachR b (bAt b p) p c → c ∉ marked ch := by
        intro c hrc hcm
        obtain ⟨d, hd1, hd2, hd3⟩ := (mem_markedSpec b l1 c).1 (hm ▸ hcm)
        have hpc : connected b p c := (reach_iff_conn b p c).1 hrc
        have hdp : connected b d p := Relation.ReflTransGen.trans hd3 (connected_symm b p c hpc)
        have hpm : p ∈ marked ch := by
          rw [hm]
          exact (mem_markedSpec b l1 p).2 ⟨d, hd1, hd2, hdp⟩
        rw [mem_marked, hc.2] at hpm
        exact Bool.false_ne_true hpm
      obtain ⟨g1, g2, g3⟩ := get_group_size_spec b p ch hg hc.2 hdisj
      have e : scoreStep b (sc, ch) p
          = (sc + (get_group_size b p ch).1 * (get_group_size b p ch).1,
              (get_group_size b p ch).2) := by
        unfold scoreStep
        rw [if_pos hc]
      rw [e]
      have hm' : marked (get_group_size b p ch).2 = markedSpec b (l1 ++ [p]) := by
        rw [g2, hm]
        ext c
        rw [Finset.mem_union, mem_markedSpec, mem_markedSpec, mem_componentOf]
        constructor
        · intro hcm
          rcases hcm with ⟨d, hd1, hd2, hd3⟩ | hcm
          · exact ⟨d, List.mem_append_left _ hd1, hd2, hd3⟩
          · exact ⟨p, List.mem_append_right _ (List.mem_singleton_self p), hc.1, hcm⟩
        · intro ⟨d, hd1, hd2, hd3⟩
          rcases List.mem_append.1 hd1 with hd1 | hd1
          · exact Or.inl ⟨d, hd1, hd2, hd3⟩
          · rw [List.mem_singleton] at hd1
            subst hd1
            exact Or.inr hd3
      have hnotmem : componentOf b p ∉ compsUpTo b l1 := by
        intro hmem
        obtain ⟨d, hd1, hd2⟩ := Finset.mem_image.1 hmem
        obtain ⟨hd3, hd4⟩ := Finset.mem_filter.1 hd1
        have hdp : connected b d p := by
          rw [← mem_componentOf, hd2]
          exact (mem_componentOf b p p).2 Relation.ReflTransGen.refl
        have hpm : p ∈ marked ch := by
          rw [hm]
          exact (mem_markedSpec b l1 p).2 ⟨d, List.mem_toFinset.1 hd3, hd4, hdp⟩
        rw [mem_marked, hc.2] at hpm
        exact Bool.false_ne_true hpm
      have hcomps : compsUpTo b (l1 ++ [p]) = insert (componentOf b p) (compsUpTo b l1) := by
        unfold compsUpTo
        rw [show (l1 ++ [p]).toFinset = insert p l1.toFinset by
          ext c
          simp [List.mem_append, or_comm]]
        rw [Finset.filter_insert, if_pos hc.1, Finset.image_insert]
      have hsc' : sc + (get_group_size b p ch).1 * (get_group_size b p ch).1
          = ∑ K ∈ compsUpTo b (l1 ++ [p]), K.card ^ 2 := by
        rw [hcomps, Finset.sum_insert hnotmem, hsc, g1, pow_two]
        omega
      exact ih (l1 ++ [p]) _ _ g3 hm' hsc'
    · have e : scoreStep b (sc, ch) p = (sc, ch) := by
        unfold scoreStep
        rw [if_neg hc]
      rw [e]
      rcases Decidable.not_and_iff_or_not.1 hc with hz | hck
      · have hz : bAt b p = 0 := Decidable.not_not.1 hz
        have hmm : markedSpec b (l1 ++ [p]) = markedSpec b l1 := by
          ext c
          rw [mem_markedSpec, mem_markedSpec]
          constructor
          · intro ⟨d, hd1, hd2, hd3⟩
            rcases List.mem_append.1 hd1 with hd1 | hd1
            · exact ⟨d, hd1, hd2, hd3⟩
            · rw [List.mem_singleton] at hd1
              subst hd1
              exact absurd hz hd2
          · intro ⟨d, hd1, hd2, hd3⟩
            exact ⟨d, List.mem_append_left _ hd1, hd2, hd3⟩
        have hcc : compsUpTo b (l1 ++ [p]) = compsUpTo b l1 := by
          unfold compsUpTo
          rw [show (l1 ++ [p]).toFinset = insert p l1.toFinset by
            ext c
            simp [List.mem_append, or_comm]]
          rw [Finset.filter_insert, if_neg (Decidable.not_not.2 hz)]
        exact ih (l1 ++ [p]) sc ch hg (hm.trans hmm.symm) (hsc.trans (by rw [hcc]))
      · have hck : ckAt ch p = true := by
          rcases Bool.dichotomy (ckAt ch p) with hx | hx
          · exact absurd hx hck
          · exact hx
        have hpm : p ∈ markedSpec b l1 := by
          rw [← hm, mem_marked]
          exact hck
        obtain ⟨d0, hd01, hd02, hd03⟩ := (mem_markedSpec b l1 p).1 hpm
        have hmm : markedSpec b (l1 ++ [p]) = markedSpec b l1 := by
          ext c
          rw [mem_markedSpec, mem_markedSpec]
          constructor
          · intro ⟨d, hd1, hd2, hd3⟩
            rcases List.mem_append.1 hd1 with hd1 | hd1
            · exact ⟨d, hd1, hd2, hd3⟩
            · rw [List.mem_singleton] at hd1
              subst hd1
              exact ⟨d0, hd01, hd02, Relation.ReflTransGen.trans hd03 hd3⟩
          · intro ⟨d, hd1, hd2, hd3⟩
            exact ⟨d, List.mem_append_left _ hd1, hd2, hd3⟩
        have hcc : compsUpTo b (l1 ++ [p]) = compsUpTo b l1 := by
          unfold compsUpTo
          rw [show (l1 ++ [p]).toFinset = insert p l1.toFinset by
            ext c
            simp [List.mem_append, or_comm]]
          by_cases hz : bAt b p ≠ 0
          · rw [Finset.filter_insert, if_pos hz, Finset.image_insert]
            rw [componentOf_eq_of_connected b p d0 (connected_symm b d0 p hd03)]
            apply Finset.insert_eq_self.2
            exact Finset.mem_image.2 ⟨d0, Finset.mem_filter.2 ⟨List.mem_toFinset.2 hd01, hd02⟩, rfl⟩
          · rw [Finset.filter_insert, if_neg hz]
        exact ih (l1 ++ [p]) sc ch hg (hm.trans hmm.symm) (hsc.trans (by rw [hcc]))

lemma get_score_eq (b : Board) :
    get_score b
      = (cellsRM.foldl (scoreStep b) (0, List.replicate H (List.replicate W false))).1 := by
  unfold get_score cellsRM
  rw [foldl_flatMap]
  simp only [List.foldl_map]

lemma ckAt_init : ∀ c : Cell, ckAt (List.replicate H (List.replicate W false)) c = false := by
  decide

lemma compsUpTo_univ (b : Board) : compsUpTo b cellsRM = componentsOf b := by
  unfold compsUpTo componentsOf
  rw [show cellsRM.toFinset = (Finset.univ : Finset Cell) from
    Finset.eq_univ_iff_forall.2 fun c => List.mem_toFinset.2 (mem_cellsRM c)]

/-- C4: for every board, State::get_score equals the spec's score, the sum
over maximal 4-neighbour axis-connected components of equal-valued
non-empty cells of the squared component size; in particular the empty
board scores 0, the board with exactly two disjoint groups of sizes 3 and
5 scores 3^2 + 5^2 = 34, and the board whose 100 cells all hold one tile
value scores 10000. -/
theorem claim_C4 :
    (∀ b : Board, get_score b = specScore b) ∧
    get_score emptyBoard = 0 ∧ get_score twoGroupsBoard = 34 ∧
    get_score fullBoard = 10000 := by
  refine ⟨?_, by decide, by decide, by decide⟩
  intro b
  rw [get_score_eq]
  rw [score_fold b cellsRM [] 0 (List.replicate H (List.replicate W false))
    ⟨by simp, fun r hr => by rw [List.eq_of_mem_replicate hr]; simp⟩
    (by
      ext c
      rw [mem_marked, ckAt_init c, mem_markedSpec]
      simp)
    (by
      unfold compsUpTo
      simp)]
  rw [List.nil_append, compsUpTo_univ]
  rfl

/-- C7, counterexample to the claim as stated: with the program's
threshold of 1950 ms, END_TURN = 100 turns and zero elapsed time, the
per-turn allowance computed by is_time_over grows strictly from turn 0 to
turn 1 (19500000 ns to 19696969 ns), because the remaining time is
unchanged while the divisor end_turn - turn shrinks; so the allowance is
not "strictly decreasing or equal" as the turn index increases. -/
theorem claim_C7_counterexample :
    ((TimeKeeper.new 1950 END_TURN).set_turn 0).now_threshold 0 <
    ((TimeKeeper.new 1950 END_TURN).set_turn 1).now_threshold 0 := by decide

/-- C7 (amended): with a fixed total threshold and END_TURN turns, calling
set_turn successively for turns 0, 1, ..., END_TURN-1 with zero elapsed
time between calls yields a per-turn allowance - remaining time divided by
(end_turn - turn) as computed in is_time_over - that is strictly increasing
or equal (non-decreasing) as the turn index increases.  The bound
end_turn < 2^32 keeps the `as u32` cast of the divisor exact; the program
always has end_turn = 100. -/
theorem claim_C7 (tk : TimeKeeper) (t1 t2 : Int) (h0 : 0 ≤ t1) (h1 : t1 ≤ t2)
    (h2 : t2 < tk.end_turn) (h3 : tk.end_turn < 2 ^ 32) :
    (tk.set_turn t1).now_threshold 0 ≤ (tk.set_turn t2).now_threshold 0 := by
  unfold TimeKeeper.set_turn TimeKeeper.now_threshold i64AsU32
  have e1 : (tk.end_turn - t1) % 2 ^ 32 = tk.end_turn - t1 :=
    Int.emod_eq_of_lt (by omega) (by omega)
  have e2 : (tk.end_turn - t2) % 2 ^ 32 = tk.end_turn - t2 :=
    Int.emod_eq_of_lt (by omega) (by omega)
  rw [e1, e2]
  exact Nat.div_le_div_left (by omega) (by omega)

/-- C7 witness: the amended monotonicity at the program's parameters,
turns 0 and 1. -/
theorem claim_C7_witness :
    ((TimeKeeper.new 1950 100).set_turn 0).now_threshold 0 ≤
    ((TimeKeeper.new 1950 100).set_turn 1).now_threshold 0 :=
  claim_C7 (TimeKeeper.new 1950 100) 0 1 (by decide) (by decide) (by decide) (by decide)

/-- C10, counterexample to the claim as stated: the stated precondition
(elapsed time at most the threshold, and turn < end_turn) does not by
itself make is_time_over total, because `(end_turn - turn) as u32` can wrap
to 0: with end_turn = 2^32 and turn = 0 the elapsed time 0 is at most the
threshold and turn < end_turn, yet the Duration division panics (none). -/
theorem claim_C10_counterexample :
    (TimeKeeper.new 1950 (2 ^ 32)).turn < (TimeKeeper.new 1950 (2 ^ 32)).end_turn ∧
    0 ≤ (TimeKeeper.new 1950 (2 ^ 32)).time_threshold ∧
    (TimeKeeper.new 1950 (2 ^ 32)).is_time_over 0 0 = none := by decide

/-- C10 (amended): is_time_over is total only under an elapsed-time
precondition the spec does not state: whenever the elapsed time since
construction is at most time_threshold, turn < end_turn, and end_turn -
turn fits in a u32 (as everywhere in the program, where end_turn = 100 and
0 <= turn < 100), it returns a boolean normally and the failure branch of
the Duration subtraction time_threshold - whole_diff is unreachable;
conversely, once the process has run past the total budget the subtraction
does underflow (panic), which the spec's division-by-zero remark does not
rule out. -/
theorem claim_C10 (tk : TimeKeeper) (wholeDiff lastDiff : Nat)
    (h1 : wholeDiff ≤ tk.time_threshold) (h2 : tk.turn < tk.end_turn)
    (h3 : tk.end_turn - tk.turn < 2 ^ 32) :
    (∃ bb : Bool, tk.is_time_over wholeDiff lastDiff = some bb) ∧
    (∀ whole2 last2 : Nat, tk.time_threshold < whole2 →
      tk.is_time_over whole2 last2 = none) := by
  constructor
  · refine ⟨decide (tk.now_threshold wholeDiff ≤ lastDiff), ?_⟩
    unfold TimeKeeper.is_time_over
    rw [if_neg (by omega)]
    rw [if_neg ?_]
    unfold i64AsU32
    rw [Int.emod_eq_of_lt (by omega) (by omega)]
    omega
  · intro whole2 last2 hw
    unfold TimeKeeper.is_time_over
    rw [if_pos hw]

/-- C10 witness: at the program's parameters (threshold 1950 ms, end_turn
100, turn 0) with 1 ms elapsed, is_time_over returns a boolean, and once
2000 ms have elapsed the subtraction underflow branch is taken. -/
theorem claim_C10_witness :
    (∃ bb : Bool, (TimeKeeper.new 1950 100).is_time_over 1000000 0 = some bb) ∧
    (TimeKeeper.new 1950 100).is_time_over 2000000000 0 = none := by
  have h := claim_C10 (TimeKeeper.new 1950 100) 1000000 0 (by decide) (by decide) (by decide)
  exact ⟨h.1, h.2 2000000000 0 (by decide)⟩

/-! ## The rule-table claim -/

/-- C5: for every state whose turn counter is at least END_TURN - 1,
rulebase_action returns Forward; for turn < END_TURN - 1 and scheduled
values in [1, 3] at the current and next turn it returns exactly the entry
of the fixed 3x3 table at row (current value - 1), column (next value - 1),
and in particular the lookup stays in bounds (the result is `some`, never
the `none` that models an out-of-bounds panic). -/
theorem claim_C5 (candies : Nat → Nat) (s : State) :
    (s.turn ≥ END_TURN - 1 → rulebase_action candies s = some Action.Forward) ∧
    (s.turn < END_TURN - 1 →
      1 ≤ candies s.turn → candies s.turn ≤ 3 →
      1 ≤ candies (s.turn + 1) → candies (s.turn + 1) ≤ 3 →
      rulebase_action candies s =
        some ((ruleTable.getD (candies s.turn - 1) []).getD
          (candies (s.turn + 1) - 1) Action.Forward)) := by
  constructor
  · intro h
    unfold rulebase_action
    rw [if_pos h]
  · intro ht h1 h2 h3 h4
    unfold rulebase_action
    rw [if_neg (by omega)]
    have hv : candies s.turn = 1 ∨ candies s.turn = 2 ∨ candies s.turn = 3 := by omega
    have hw : candies (s.turn + 1) = 1 ∨ candies (s.turn + 1) = 2 ∨
        candies (s.turn + 1) = 3 := by omega
    rcases hv with h | h | h <;> rcases hw with g | g | g <;> rw [h, g] <;> decide

/-- C5 witness: with scheduled values 1 then 2 the table yields Back at
turn 0, and at turn 99 the forced action is Forward. -/
theorem claim_C5_witness :
    rulebase_action candiesEx ⟨emptyBoard, 0⟩ = some Action.Back ∧
    rulebase_action candiesEx ⟨emptyBoard, 99⟩ = some Action.Forward := by
  constructor
  · exact ((claim_C5 candiesEx ⟨emptyBoard, 0⟩).2 (by decide) (by decide) (by decide)
      (by decide) (by decide)).trans (by decide)
  · exact (claim_C5 candiesEx ⟨emptyBoard, 99⟩).1 (by decide)

/-! ## The selection claim -/

/-- C6: the selection loop picks the action whose accumulated total is
strictly greatest, ties resolved in favour of the earliest action in the
enumeration order [Forward, Back, Left, Right]; in particular when every
accumulator is still 0 (no rollout completed before the budget expired) it
returns the first action, Forward, rather than failing. -/
theorem claim_C6 (w0 w1 w2 w3 : Nat) :
    (∃ d : Nat, d < 4 ∧
      primitive_monteralro_select [w0, w1, w2, w3] = LEGAL_ACTIONS.getD d Action.Forward ∧
      (∀ j, j < 4 → ([w0, w1, w2, w3].getD j 0) ≤ ([w0, w1, w2, w3].getD d 0)) ∧
      (∀ j, j < 4 → ([w0, w1, w2, w3].getD j 0) = ([w0, w1, w2, w3].getD d 0) → d ≤ j)) ∧
    (w0 = 0 ∧ w1 = 0 ∧ w2 = 0 ∧ w3 = 0 →
      primitive_monteralro_select [w0, w1, w2, w3] = Action.Forward) := by
  constructor
  · unfold primitive_monteralro_select bestAccum
    rw [show List.range ([w0, w1, w2, w3] : List Nat).length = [0, 1, 2, 3] from rfl]
    simp only [List.foldl_cons, List.foldl_nil, List.getD_cons_zero, List.getD_cons_succ]
    split_ifs <;>
      first
      | (refine ⟨3, by omega, rfl, ?_, ?_⟩ <;>
          (intro j hj
           interval_cases j <;>
             simp only [List.getD_cons_zero, List.getD_cons_succ] <;> omega))
      | (refine ⟨2, by omega, rfl, ?_, ?_⟩ <;>
          (intro j hj
           interval_cases j <;>
             simp only [List.getD_cons_zero, List.getD_cons_succ] <;> omega))
      | (refine ⟨1, by omega, rfl, ?_, ?_⟩ <;>
          (intro j hj
           interval_cases j <;>
             simp only [List.getD_cons_zero, List.getD_cons_succ] <;> omega))
      | (refine ⟨0, by omega, rfl, ?_, ?_⟩ <;>
          (intro j hj
           interval_cases j <;>
             simp only [List.getD_cons_zero, List.getD_cons_succ] <;> omega))
  · rintro ⟨rfl, rfl, rfl, rfl⟩
    decide

/-- C6 witness: with accumulators 1, 3, 3, 2 the selection satisfies the
argmax-with-earliest-tie property, and with all accumulators 0 the default
Forward is returned. -/
theorem claim_C6_witness :
    (∃ d : Nat, d < 4 ∧
      primitive_monteralro_select [1, 3, 3, 2] = LEGAL_ACTIONS.getD d Action.Forward ∧
      (∀ j, j < 4 → ([1, 3, 3, 2].getD j 0) ≤ ([1, 3, 3, 2].getD d 0)) ∧
      (∀ j, j < 4 → ([1, 3, 3, 2].getD j 0) = ([1, 3, 3, 2].getD d 0) → d ≤ j)) ∧
    primitive_monteralro_select [0, 0, 0, 0] = Action.Forward :=
  ⟨(claim_C6 1 3 3 2).1, (claim_C6 0 0 0 0).2 ⟨rfl, rfl, rfl, rfl⟩⟩

end AHC
